import Mathlib

/-!
Verification of the NetworkDesigner core algorithms: a shallow embedding of
the graph_manager package (VLSM address planning, VLAN bin packing, Prim's
minimum spanning tree, layer assignment, hierarchy building and
distribution-to-core link address allocation), with theorems checking the
natural-language specification against the code.

Device names such as Switch_3 or Router_1 are represented by an explicit
inductive type; the duck-typed substring test for Switch in a name is mirrored
by hasSwitchSub, which is true exactly for the names in which the Python
substring test finds Switch (plain switches and multilayer switches).
IPv4 addresses are 32-bit integers represented as Nat with explicit masking
where the code converts to dotted-quad strings.
-/

/-- Quad mirrors a dotted-quad IPv4 string such as 192.168.0.0: four octet
fields as produced by int_to_ip. -/
structure Quad where
  o1 : ℕ
  o2 : ℕ
  o3 : ℕ
  o4 : ℕ
deriving Repr, DecidableEq

/-- Embeds ip_to_int from access_configuration.py: octets shifted and or-ed
together. -/
def ip_to_int (ip : Quad) : ℕ :=
  (ip.o1 <<< 24) ||| (ip.o2 <<< 16) ||| (ip.o3 <<< 8) ||| ip.o4

/-- Embeds int_to_ip from access_configuration.py: each octet of the dotted
string is the shifted value masked with 0xFF. -/
def int_to_ip (ip_int : ℕ) : Quad :=
  ⟨(ip_int >>> 24) &&& 0xFF, (ip_int >>> 16) &&& 0xFF,
   (ip_int >>> 8) &&& 0xFF, ip_int &&& 0xFF⟩

/-- The integer value denoted by a dotted quad (the number that the four
octets spell in base 256); used to speak about subnets as integer ranges. -/
def quadVal (q : Quad) : ℕ :=
  q.o1 * 2 ^ 24 + q.o2 * 2 ^ 16 + q.o3 * 2 ^ 8 + q.o4

/-- Fuel-driven ceiling of log2: ceilLog2Aux fuel m computes the least k with
m ≤ 2 ^ k, provided fuel ≥ m.  Structural recursion on the fuel keeps the
definition kernel-reducible. -/
def ceilLog2Aux : ℕ → ℕ → ℕ
  | 0, _ => 0
  | fuel + 1, m => if m ≤ 1 then 0 else ceilLog2Aux fuel ((m + 1) / 2) + 1

/-- math.ceil(math.log2 m) for m ≥ 1: the least k with m ≤ 2 ^ k. -/
def ceilLog2 (m : ℕ) : ℕ := ceilLog2Aux m m

/-- Embeds calculate_subnet_size from access_configuration.py:
2 ** math.ceil(math.log2 (hosts + 3)). -/
def calculate_subnet_size (hosts : ℕ) : ℕ := 2 ^ ceilLog2 (hosts + 3)

/-- The error taxonomy relevant to calculate_vlsm: the spec names
AddressSpaceExhausted; Python's math.log2 raises a math-domain ValueError on
non-positive arguments. -/
inductive VlsmErr where
  | mathDomain
  | addressSpaceExhausted
deriving Repr, DecidableEq

/-- calculate_subnet_size on a Python int argument: math.log2(hosts + 3)
raises a math-domain error when hosts + 3 ≤ 0, otherwise the smallest power
of two at least hosts + 3. -/
def calcSubnetSizeZ (hosts : ℤ) : Except VlsmErr ℕ :=
  if hosts + 3 ≤ 0 then .error .mathDomain
  else .ok (2 ^ ceilLog2 (hosts + 3).toNat)

/-- One entry of the list returned by calculate_vlsm, mirroring the Python
dict: the range field keeps the dotted network quad together with the mask
length, and first_ip, last_ip are the dotted strings stored there. -/
structure SubnetInfo where
  rangeQ : Quad
  rangeMask : ℕ
  first_ip : Quad
  last_ip : Quad
  subnet_mask : ℕ
  size : ℕ
deriving Repr, DecidableEq

/-- Python's sorted(sizes, reverse=True): a stable descending sort. -/
def sortSizesDesc (sizes : List ℕ) : List ℕ :=
  List.insertionSort (· ≥ ·) sizes

/-- The body of the allocation loop of calculate_vlsm: the subnet dict built
for one block, where bits_needed = int(math.log2 size) and
subnet_mask = 32 - bits_needed. -/
def mkSubnetEntry (current_ip size : ℕ) : SubnetInfo :=
  { rangeQ := int_to_ip current_ip
    rangeMask := 32 - ceilLog2 size
    first_ip := int_to_ip (current_ip + 1)
    last_ip := int_to_ip (current_ip + size - 3)
    subnet_mask := 32 - ceilLog2 size
    size := size }

/-- The allocation loop of calculate_vlsm: walk the cursor over the sorted
sizes, emitting one SubnetInfo per size. -/
def vlsmWalk : ℕ → List ℕ → List SubnetInfo
  | _, [] => []
  | current_ip, size :: rest =>
    mkSubnetEntry current_ip size :: vlsmWalk (current_ip + size) rest

/-- The first loop of calculate_vlsm: append calculate_subnet_size hosts for
each count, stopping with the exception math.log2 raises on the first
non-positive argument. -/
def collectSizes : List ℤ → Except VlsmErr (List ℕ)
  | [] => .ok []
  | hosts :: rest => do
    let s ← calcSubnetSizeZ hosts
    let out ← collectSizes rest
    return s :: out

/-- Embeds calculate_vlsm from access_configuration.py: compute a block size
per host count, sort the sizes descending, then walk a cursor from the base
address emitting one subnet per size.  The only failure the code can raise is
the math-domain error from log2 on a non-positive argument. -/
def calculate_vlsm (ip_base : Quad) (total_hosts : List ℤ) :
    Except VlsmErr (List SubnetInfo) := do
  let subnet_sizes ← collectSizes total_hosts
  let sorted_subnet_sizes := sortSizesDesc subnet_sizes
  return vlsmWalk (ip_to_int ip_base) sorted_subnet_sizes

theorem vlsm_smoke1 :
    calculate_vlsm ⟨192, 168, 0, 0⟩ [5, 13] =
      .ok [{ rangeQ := ⟨192, 168, 0, 0⟩, rangeMask := 28,
             first_ip := ⟨192, 168, 0, 1⟩, last_ip := ⟨192, 168, 0, 13⟩,
             subnet_mask := 28, size := 16 },
           { rangeQ := ⟨192, 168, 0, 16⟩, rangeMask := 29,
             first_ip := ⟨192, 168, 0, 17⟩, last_ip := ⟨192, 168, 0, 21⟩,
             subnet_mask := 29, size := 8 }] := by
  rfl

lemma ceilLog2Aux_le_pow : ∀ fuel m, m ≤ fuel → m ≤ 2 ^ ceilLog2Aux fuel m := by
  intro fuel
  induction fuel with
  | zero =>
    intro m hm
    have hm0 : m = 0 := by omega
    subst hm0
    simp [ceilLog2Aux]
  | succ f ih =>
    intro m hm
    by_cases h1 : m ≤ 1
    · simp [ceilLog2Aux, h1]
    · have hrec : (m + 1) / 2 ≤ f := by omega
      have := ih ((m + 1) / 2) hrec
      simp only [ceilLog2Aux, h1, if_false]
      calc m ≤ 2 * 2 ^ ceilLog2Aux f ((m + 1) / 2) := by omega
        _ = 2 ^ (ceilLog2Aux f ((m + 1) / 2) + 1) := by ring

lemma ceilLog2Aux_min : ∀ fuel m j, m ≤ 2 ^ j → ceilLog2Aux fuel m ≤ j := by
  intro fuel
  induction fuel with
  | zero => intro m j _; simp [ceilLog2Aux]
  | succ f ih =>
    intro m j hj
    by_cases h1 : m ≤ 1
    · simp [ceilLog2Aux, h1]
    · simp only [ceilLog2Aux, h1, if_false]
      have hj1 : 1 ≤ j := by
        by_contra hc
        push_neg at hc
        interval_cases j
        simp at hj; omega
      have h2j : 2 ^ j = 2 * 2 ^ (j - 1) := by
        rw [← pow_succ']
        congr 1
        omega
      have : (m + 1) / 2 ≤ 2 ^ (j - 1) := by omega
      have := ih ((m + 1) / 2) (j - 1) this
      omega

/-- ceilLog2 m is the least exponent k with m ≤ 2 ^ k. -/
lemma ceilLog2_spec (m : ℕ) :
    m ≤ 2 ^ ceilLog2 m ∧ ∀ j, m ≤ 2 ^ j → ceilLog2 m ≤ j :=
  ⟨ceilLog2Aux_le_pow m m le_rfl, fun j hj => ceilLog2Aux_min m m j hj⟩

/-- ceilLog2 is exact on powers of two. -/
lemma ceilLog2_pow (k : ℕ) : ceilLog2 (2 ^ k) = k :=
  le_antisymm ((ceilLog2_spec (2 ^ k)).2 k le_rfl)
    ((pow_le_pow_iff_right₀ one_lt_two).mp (ceilLog2_spec (2 ^ k)).1)

/-- calculate_subnet_size h is the smallest power of two at least h + 3. -/
lemma calculate_subnet_size_spec (h : ℕ) :
    h + 3 ≤ calculate_subnet_size h ∧
      ∀ j, h + 3 ≤ 2 ^ j → calculate_subnet_size h ≤ 2 ^ j := by
  refine ⟨(ceilLog2_spec (h + 3)).1, fun j hj => ?_⟩
  exact pow_le_pow_right₀ one_le_two ((ceilLog2_spec (h + 3)).2 j hj)

lemma calculate_subnet_size_pos (h : ℕ) : 4 ≤ calculate_subnet_size h := by
  have h1 := (ceilLog2_spec (h + 3)).1
  show 4 ≤ 2 ^ ceilLog2 (h + 3)
  rcases Nat.lt_or_ge (ceilLog2 (h + 3)) 2 with hk | hk
  · have : 2 ^ ceilLog2 (h + 3) ≤ 2 ^ 1 := pow_le_pow_right₀ one_le_two (by omega)
    omega
  · calc (4 : ℕ) = 2 ^ 2 := by norm_num
      _ ≤ 2 ^ ceilLog2 (h + 3) := pow_le_pow_right₀ one_le_two hk

/-- The dotted quad printed by int_to_ip denotes the input reduced mod 2^32. -/
lemma quadVal_int_to_ip (x : ℕ) : quadVal (int_to_ip x) = x % 2 ^ 32 := by
  have h8 := Nat.and_pow_two_sub_one_eq_mod (x >>> 8) 8
  have h16 := Nat.and_pow_two_sub_one_eq_mod (x >>> 16) 8
  have h24 := Nat.and_pow_two_sub_one_eq_mod (x >>> 24) 8
  have h0 := Nat.and_pow_two_sub_one_eq_mod x 8
  simp only [Nat.shiftRight_eq_div_pow] at h8 h16 h24
  unfold quadVal int_to_ip
  simp only [Nat.shiftRight_eq_div_pow]
  norm_num at h8 h16 h24 h0 ⊢
  rw [h8, h16, h24, h0]
  omega

lemma vlsmWalk_length (l : List ℕ) : ∀ c, (vlsmWalk c l).length = l.length := by
  induction l with
  | nil => intro c; rfl
  | cons s rest ih => intro c; simp [vlsmWalk, ih]

lemma vlsmWalk_map_size (l : List ℕ) :
    ∀ c, (vlsmWalk c l).map SubnetInfo.size = l := by
  induction l with
  | nil => intro c; rfl
  | cons s rest ih => intro c; simp [vlsmWalk, mkSubnetEntry, ih]

lemma vlsmWalk_getElem (l : List ℕ) : ∀ c i (h : i < l.length)
    (h2 : i < (vlsmWalk c l).length),
    (vlsmWalk c l)[i] = mkSubnetEntry (c + (l.take i).sum) l[i] := by
  induction l with
  | nil => intro c i h _; simp at h
  | cons s rest ih =>
    intro c i h h2
    match i with
    | 0 => simp [vlsmWalk]
    | Nat.succ j =>
      have hj : j < rest.length := by simpa using h
      have hj2 : j < (vlsmWalk (c + s) rest).length := by
        rw [vlsmWalk_length]
        exact hj
      have := ih (c + s) j hj hj2
      simp only [vlsmWalk, List.getElem_cons_succ, List.take_succ_cons,
        List.sum_cons] at *
      rw [this]
      congr 1
      omega

/-- On Nat counts, collecting the sizes always succeeds and yields
calculate_subnet_size of each count. -/
lemma collectSizes_ok (counts : List ℕ) :
    collectSizes (counts.map Int.ofNat) = .ok (counts.map calculate_subnet_size) := by
  induction counts with
  | nil => rfl
  | cons h rest ih =>
    have hc : calcSubnetSizeZ (Int.ofNat h) = .ok (calculate_subnet_size h) := by
      unfold calcSubnetSizeZ
      have hneg : ¬ (Int.ofNat h + 3 ≤ 0) := by
        simp only [Int.ofNat_eq_natCast]; omega
      have h3 : (Int.ofNat h + 3).toNat = h + 3 := by
        simp only [Int.ofNat_eq_natCast]; omega
      simp only [hneg, if_false, h3]
      rfl
    simp only [List.map_cons, collectSizes, hc, ih]
    rfl

lemma take_sum_le_sum (l : List ℕ) (i : ℕ) : (l.take i).sum ≤ l.sum := by
  conv_rhs => rw [← List.take_append_drop i l]
  rw [List.sum_append]
  omega

lemma take_sum_mono (l : List ℕ) {i j : ℕ} (hij : i ≤ j) :
    (l.take i).sum ≤ (l.take j).sum := by
  rw [← List.take_append_drop i (l.take j), List.take_take,
    Nat.min_eq_left hij, List.sum_append]
  omega

/-- Under no 32-bit overflow, the walk's emitted network quads denote exactly
the cursor values, the blocks are consecutive, and hence the integer ranges
are pairwise disjoint and ascending. -/
lemma vlsmWalk_base (l : List ℕ) (c : ℕ) (i : ℕ) (h : i < l.length)
    (h2 : i < (vlsmWalk c l).length)
    (hov : c + l.sum ≤ 2 ^ 32) (hpos : ∀ s ∈ l, 1 ≤ s) :
    quadVal ((vlsmWalk c l)[i]).rangeQ = c + (l.take i).sum := by
  rw [vlsmWalk_getElem l c i h h2]
  show quadVal (int_to_ip (c + (l.take i).sum)) = _
  rw [quadVal_int_to_ip]
  apply Nat.mod_eq_of_lt
  have h1 : (l.take (i + 1)).sum = (l.take i).sum + l[i] := List.sum_take_succ l i h
  have h2 : (l.take (i + 1)).sum ≤ l.sum := take_sum_le_sum l (i + 1)
  have h3 : 1 ≤ l[i] := hpos _ (l.getElem_mem h)
  omega

/-- Every subnet emitted by the walk occupies an integer range inside
[c, c + sum of sizes), with its printed base denoting the true cursor. -/
lemma vlsmWalk_mem_range : ∀ (l : List ℕ) (c : ℕ),
    (∀ s ∈ l, 1 ≤ s) → c + l.sum ≤ 2 ^ 32 →
    ∀ b ∈ vlsmWalk c l,
      c ≤ quadVal b.rangeQ ∧ quadVal b.rangeQ + b.size ≤ c + l.sum := by
  intro l
  induction l with
  | nil => intro c _ _ b hb; simp [vlsmWalk] at hb
  | cons s rest ih =>
    intro c hpos hov b hb
    have hs1 : 1 ≤ s := hpos s (by simp)
    have hsum : (s :: rest).sum = s + rest.sum := by simp
    rcases List.mem_cons.mp hb with hhead | htail
    · subst hhead
      have hc32 : c < 2 ^ 32 := by omega
      constructor
      · show c ≤ quadVal (int_to_ip c)
        rw [quadVal_int_to_ip, Nat.mod_eq_of_lt hc32]
      · show quadVal (int_to_ip c) + s ≤ c + (s :: rest).sum
        rw [quadVal_int_to_ip, Nat.mod_eq_of_lt hc32]
        omega
    · have := ih (c + s) (fun x hx => hpos x (by simp [hx])) (by omega) b htail
      omega

/-- Under no 32-bit overflow the emitted blocks are consecutive: each block's
printed base plus its size is at most the printed base of every later block,
so the integer ranges are pairwise disjoint and strictly ascending. -/
lemma vlsmWalk_disjoint : ∀ (l : List ℕ) (c : ℕ),
    (∀ s ∈ l, 1 ≤ s) → c + l.sum ≤ 2 ^ 32 →
    List.Pairwise (fun a b => quadVal a.rangeQ + a.size ≤ quadVal b.rangeQ)
      (vlsmWalk c l) := by
  intro l
  induction l with
  | nil => intro c _ _; simp [vlsmWalk]
  | cons s rest ih =>
    intro c hpos hov
    have hs1 : 1 ≤ s := hpos s (by simp)
    have hsum : (s :: rest).sum = s + rest.sum := by simp
    refine List.Pairwise.cons ?_ (ih (c + s) (fun x hx => hpos x (by simp [hx])) (by omega))
    intro b hb
    have hmem := vlsmWalk_mem_range rest (c + s)
      (fun x hx => hpos x (by simp [hx])) (by omega) b hb
    have hc32 : c < 2 ^ 32 := by omega
    show quadVal (int_to_ip c) + s ≤ quadVal b.rangeQ
    rw [quadVal_int_to_ip, Nat.mod_eq_of_lt hc32]
    omega

lemma sortSizesDesc_perm (l : List ℕ) : (sortSizesDesc l).Perm l :=
  List.perm_insertionSort _ l

lemma sortSizesDesc_sorted (l : List ℕ) : List.Sorted (· ≥ ·) (sortSizesDesc l) :=
  List.sorted_insertionSort _ l

/-- C2 (amended): for strictly positive host counts and a base address whose
allocation stays below 2^32, calculate_vlsm succeeds with one subnet per
count, the block sizes are exactly the smallest powers of two covering
count + 3, and the returned subnets' integer address ranges are pairwise
disjoint, in ascending base-address order matching descending block-size
order. -/
theorem calculate_vlsm_disjoint_sorted (q : Quad) (counts : List ℕ)
    (_hpos : ∀ h ∈ counts, 1 ≤ h)
    (hov : ip_to_int q + (counts.map calculate_subnet_size).sum ≤ 2 ^ 32) :
    ∃ subs, calculate_vlsm q (counts.map Int.ofNat) = .ok subs ∧
      subs.length = counts.length ∧
      (subs.map SubnetInfo.size).Perm (counts.map calculate_subnet_size) ∧
      (∀ h ∈ counts, h + 3 ≤ calculate_subnet_size h ∧
        ∀ j, h + 3 ≤ 2 ^ j → calculate_subnet_size h ≤ 2 ^ j) ∧
      List.Pairwise
        (fun a b => quadVal a.rangeQ + a.size ≤ quadVal b.rangeQ) subs ∧
      List.Pairwise (fun a b => b.size ≤ a.size) subs := by
  have hok := collectSizes_ok counts
  set sizes := counts.map calculate_subnet_size with hsizes
  set sorted := sortSizesDesc sizes with hsorted
  have hperm : sorted.Perm sizes := sortSizesDesc_perm sizes
  have hsum : sorted.sum = sizes.sum := hperm.sum_eq
  have hmem1 : ∀ s ∈ sorted, 1 ≤ s := by
    intro s hs
    have : s ∈ sizes := hperm.mem_iff.mp hs
    rcases List.mem_map.mp this with ⟨h, _, rfl⟩
    have := calculate_subnet_size_pos h
    omega
  refine ⟨vlsmWalk (ip_to_int q) sorted, ?_, ?_, ?_, ?_, ?_, ?_⟩
  · show calculate_vlsm q (counts.map Int.ofNat) = _
    unfold calculate_vlsm
    rw [hok]
    rfl
  · rw [vlsmWalk_length]
    exact hperm.length_eq.trans (by rw [hsizes]; simp)
  · rw [vlsmWalk_map_size]
    exact hperm
  · intro h _
    exact calculate_subnet_size_spec h
  · exact vlsmWalk_disjoint sorted (ip_to_int q) hmem1 (by omega)
  · have hs : List.Pairwise (· ≥ ·) ((vlsmWalk (ip_to_int q) sorted).map SubnetInfo.size) := by
      rw [vlsmWalk_map_size]
      exact sortSizesDesc_sorted sizes
    exact (List.pairwise_map.mp hs).imp (fun hab => hab)

/-- Witness for calculate_vlsm_disjoint_sorted at base 192.168.0.0 with
counts [5, 13]. -/
theorem calculate_vlsm_disjoint_sorted_witness :
    (∀ h ∈ [5, 13], 1 ≤ h) ∧
      (∃ subs, calculate_vlsm ⟨192, 168, 0, 0⟩ ([5, 13].map Int.ofNat) = .ok subs ∧
        subs.length = [5, 13].length ∧
        (subs.map SubnetInfo.size).Perm ([5, 13].map calculate_subnet_size) ∧
        (∀ h ∈ [5, 13], h + 3 ≤ calculate_subnet_size h ∧
          ∀ j, h + 3 ≤ 2 ^ j → calculate_subnet_size h ≤ 2 ^ j) ∧
        List.Pairwise
          (fun a b => quadVal a.rangeQ + a.size ≤ quadVal b.rangeQ) subs ∧
        List.Pairwise (fun a b => b.size ≤ a.size) subs) :=
  ⟨by decide, calculate_vlsm_disjoint_sorted ⟨192, 168, 0, 0⟩ [5, 13]
    (by decide) (by decide)⟩

/-- C2 (counterexample): with the valid base 0.0.0.0 and strictly positive
counts [2147483645, 2147483645, 5] the cursor passes 2^32, the printed base
addresses wrap, and the returned ranges are neither disjoint nor ascending:
the third subnet starts at 0.0.0.0 again, inside the first block. -/
theorem calculate_vlsm_overflow_not_disjoint :
    (calculate_vlsm ⟨0, 0, 0, 0⟩ [2147483645, 2147483645, 5]).map
      (fun subs => (subs.map (fun s => (quadVal s.rangeQ, s.size)),
        decide (List.Pairwise
          (fun a b => quadVal a.rangeQ + a.size ≤ quadVal b.rangeQ) subs))) =
      .ok ([(0, 2147483648), (2147483648, 2147483648), (0, 8)], false) := by
  rfl

@[simp]
lemma except_bind_ok {ε α β : Type} (a : α) (f : α → Except ε β) :
    (Except.ok a >>= f) = f a := rfl

@[simp]
lemma except_bind_error {ε α β : Type} (e : ε) (f : α → Except ε β) :
    ((Except.error e : Except ε α) >>= f) = Except.error e := rfl

@[simp]
lemma except_map_ok {ε α β : Type} (f : α → β) (a : α) :
    (f <$> (Except.ok a : Except ε α)) = Except.ok (f a) := rfl

@[simp]
lemma except_map_error {ε α β : Type} (f : α → β) (e : ε) :
    (f <$> (Except.error e : Except ε α)) = Except.error e := rfl

lemma collectSizes_ok_iff : ∀ counts : List ℤ,
    (∃ sizes, collectSizes counts = .ok sizes) ↔ ∀ h ∈ counts, -2 ≤ h := by
  intro counts
  induction counts with
  | nil => simp [collectSizes]
  | cons h rest ih =>
    by_cases hneg : h + 3 ≤ 0
    · simp only [collectSizes, calcSubnetSizeZ, hneg, if_true, except_bind_error]
      constructor
      · rintro ⟨sizes, hs⟩
        cases hs
      · intro hall
        have := hall h (by simp)
        omega
    · simp only [collectSizes, calcSubnetSizeZ, hneg, if_false, except_bind_ok]
      cases hrest : collectSizes rest with
      | error e =>
        simp only [hrest, except_bind_error]
        constructor
        · rintro ⟨sizes, hs⟩
          cases hs
        · intro hall
          exfalso
          rcases ih.mpr (fun x hx => hall x (by simp [hx])) with ⟨s, hs⟩
          rw [hrest] at hs
          cases hs
      | ok sizes =>
        simp only [hrest, except_bind_ok]
        constructor
        · intro _ x hx
          rcases List.mem_cons.mp hx with rfl | hx'
          · omega
          · exact (ih.mp ⟨sizes, hrest⟩) x hx'
        · intro _
          exact ⟨_, rfl⟩

lemma collectSizes_error_eq : ∀ (counts : List ℤ) (e : VlsmErr),
    collectSizes counts = .error e → e = .mathDomain := by
  intro counts
  induction counts with
  | nil => intro e he; cases he
  | cons h rest ih =>
    intro e he
    by_cases hneg : h + 3 ≤ 0
    · simp only [collectSizes, calcSubnetSizeZ, hneg, if_true,
        except_bind_error] at he
      cases he
      rfl
    · simp only [collectSizes, calcSubnetSizeZ, hneg, if_false,
        except_bind_ok] at he
      cases hrest : collectSizes rest with
      | error e2 =>
        rw [hrest] at he
        simp only [except_bind_error] at he
        injection he with h2
        subst h2
        exact ih _ hrest
      | ok sizes =>
        rw [hrest] at he
        simp only [except_bind_ok] at he
        cases he

/-- C4 (amended): calculate_vlsm performs no validation.  It returns subnets
exactly when every host count is at least -2 (so it silently returns subnets
for counts 0, -1, -2, and on 32-bit overflow it silently wraps); for a count
of -3 or below it propagates the math-domain ValueError of log2.  It never
raises AddressSpaceExhausted. -/
theorem calculate_vlsm_failure_behavior (q : Quad) (counts : List ℤ) :
    ((∃ subs, calculate_vlsm q counts = .ok subs) ↔ ∀ h ∈ counts, -2 ≤ h) ∧
      calculate_vlsm q counts ≠ .error .addressSpaceExhausted := by
  constructor
  · constructor
    · rintro ⟨subs, hsubs⟩
      cases hcs : collectSizes counts with
      | error e =>
        exfalso
        simp only [calculate_vlsm, hcs, except_bind_error] at hsubs
        cases hsubs
      | ok sizes => exact (collectSizes_ok_iff counts).mp ⟨sizes, hcs⟩
    · intro hall
      rcases (collectSizes_ok_iff counts).mpr hall with ⟨sizes, hcs⟩
      exact ⟨_, by simp only [calculate_vlsm, hcs, except_bind_ok]; rfl⟩
  · intro hcontra
    cases hcs : collectSizes counts with
    | error e =>
      have he : e = .mathDomain := collectSizes_error_eq counts e hcs
      subst he
      simp only [calculate_vlsm, hcs, except_bind_error] at hcontra
      cases hcontra
    | ok sizes =>
      simp only [calculate_vlsm, hcs, except_bind_ok] at hcontra
      cases hcontra

/-- C4 (counterexample): on host count 0 — which the claim says must fail
with AddressSpaceExhausted — calculate_vlsm silently returns a size-4
subnet. -/
theorem calculate_vlsm_silent_on_zero_count :
    calculate_vlsm ⟨10, 0, 0, 0⟩ [0] =
      .ok [{ rangeQ := ⟨10, 0, 0, 0⟩, rangeMask := 30,
             first_ip := ⟨10, 0, 0, 1⟩, last_ip := ⟨10, 0, 0, 1⟩,
             subnet_mask := 30, size := 4 }] := by
  rfl

/-- Sorting the (original index, size) pairs by size descending with the
original index ascending as an explicit secondary key: the order the spec
prescribes for deterministic bindings. -/
def sortWithIndexKey (sizes : List ℕ) : List (ℕ × ℕ) :=
  List.insertionSort
    (fun p q => q.2 < p.2 ∨ (p.2 = q.2 ∧ p.1 ≤ q.1)) sizes.enum

lemma orderedInsert_snd_comm (p : ℕ × ℕ) :
    ∀ Q : List (ℕ × ℕ), (∀ q ∈ Q, p.1 < q.1) →
      (List.orderedInsert
          (fun p q => q.2 < p.2 ∨ (p.2 = q.2 ∧ p.1 ≤ q.1)) p Q).map Prod.snd =
        List.orderedInsert (· ≥ ·) p.2 (Q.map Prod.snd) := by
  intro Q
  induction Q with
  | nil => intro _; rfl
  | cons q rest ih =>
    intro hlt
    have hq : p.1 < q.1 := hlt q (by simp)
    by_cases hcmp : p.2 ≥ q.2
    · have h1 : (q.2 < p.2 ∨ (p.2 = q.2 ∧ p.1 ≤ q.1)) := by
        rcases Nat.lt_or_ge q.2 p.2 with h | h
        · exact Or.inl h
        · exact Or.inr ⟨by omega, by omega⟩
      simp only [List.orderedInsert, List.map_cons]
      rw [if_pos h1, if_pos hcmp]
      simp
    · have h1 : ¬ (q.2 < p.2 ∨ (p.2 = q.2 ∧ p.1 ≤ q.1)) := by
        push_neg
        constructor
        · omega
        · intro h2; omega
      simp only [List.orderedInsert, List.map_cons]
      rw [if_neg h1, if_neg hcmp]
      simp only [List.map_cons]
      rw [ih (fun x hx => hlt x (by simp [hx]))]

lemma insertionSort_snd_comm :
    ∀ P : List (ℕ × ℕ), List.Pairwise (fun a b => a.1 < b.1) P →
      (List.insertionSort
          (fun p q => q.2 < p.2 ∨ (p.2 = q.2 ∧ p.1 ≤ q.1)) P).map Prod.snd =
        List.insertionSort (· ≥ ·) (P.map Prod.snd) := by
  intro P
  induction P with
  | nil => intro _; rfl
  | cons p rest ih =>
    intro hpw
    rcases List.pairwise_cons.mp hpw with ⟨hhead, htail⟩
    simp only [List.insertionSort, List.map_cons]
    rw [← ih htail]
    apply orderedInsert_snd_comm
    intro x hx
    have : x ∈ rest := (List.perm_insertionSort _ rest).mem_iff.mp hx
    exact hhead x this

lemma enum_pairwise_fst (l : List ℕ) :
    List.Pairwise (fun a b => a.1 < b.1) l.enum := by
  have h1 : (l.enum.map Prod.fst).Pairwise (· < ·) := by
    rw [List.enum_map_fst]
    exact List.pairwise_lt_range l.length
  exact List.pairwise_map.mp h1

/-- The stable descending sort the code performs coincides with sorting by
size descending with the original index as secondary ascending key. -/
lemma sortSizesDesc_eq_indexKey (sizes : List ℕ) :
    sortSizesDesc sizes = (sortWithIndexKey sizes).map Prod.snd := by
  unfold sortSizesDesc sortWithIndexKey
  rw [insertionSort_snd_comm sizes.enum (enum_pairwise_fst sizes),
    List.enum_map_snd]

/-- C3: the order of the subnets returned by calculate_vlsm is exactly the
one obtained by sorting the (original index, block size) pairs by size
descending with the original position in the caller's count list as stable
secondary key, so identical inputs always produce identical device-to-subnet
bindings. -/
theorem calculate_vlsm_stable_secondary_key (q : Quad) (counts : List ℤ)
    (sizes : List ℕ) (hok : collectSizes counts = .ok sizes) :
    calculate_vlsm q counts =
      .ok (vlsmWalk (ip_to_int q) ((sortWithIndexKey sizes).map Prod.snd)) := by
  simp only [calculate_vlsm, hok, except_bind_ok]
  rw [← sortSizesDesc_eq_indexKey]
  rfl

/-- Witness for calculate_vlsm_stable_secondary_key on counts [5, 13, 5]:
the two size-8 blocks keep their original relative order behind the
size-16 block. -/
theorem calculate_vlsm_stable_secondary_key_witness :
    collectSizes [5, 13, 5] = .ok [8, 16, 8] ∧
      calculate_vlsm ⟨192, 168, 0, 0⟩ [5, 13, 5] =
        .ok (vlsmWalk (ip_to_int ⟨192, 168, 0, 0⟩)
          ((sortWithIndexKey [8, 16, 8]).map Prod.snd)) :=
  ⟨by rfl, calculate_vlsm_stable_secondary_key ⟨192, 168, 0, 0⟩ [5, 13, 5]
    [8, 16, 8] (by rfl)⟩

/-- Device names: the code builds strings Switch_i, Computer_i, Router_i,
MultiLayerSwitch_i (1-based).  The inductive rendering keeps the ordinal. -/
inductive DeviceName where
  | switch (i : ℕ)
  | computer (i : ℕ)
  | router (i : ℕ)
  | mls (i : ℕ)
deriving Repr, DecidableEq

/-- The duck-typed test: the Python substring Switch occurs in a name.  It is
true for Switch_i and for MultiLayerSwitch_i. -/
def hasSwitchSub : DeviceName → Bool
  | .switch _ => true
  | .mls _ => true
  | _ => false

/-- The duck-typed test: the Python substring Computer occurs in a name. -/
def hasComputerSub : DeviceName → Bool
  | .computer _ => true
  | _ => false

/-- The round-robin loop of bin_packing_vlans: for i, device in
enumerate(devices): vlans[i % num_vlans].append(device). -/
def rrAssign {α : Type} : List (List α) → ℕ → List α → List (List α)
  | vlans, _, [] => vlans
  | vlans, i, d :: rest =>
    let j := i % vlans.length
    rrAssign (vlans.set j (vlans.getD j [] ++ [d])) (i + 1) rest

/-- The switch names Switch_1 .. Switch_n. -/
def switchNames (n : ℕ) : List DeviceName :=
  (List.range n).map (fun i => DeviceName.switch (i + 1))

/-- The computer names Computer_1 .. Computer_n. -/
def computerNames (n : ℕ) : List DeviceName :=
  (List.range n).map (fun i => DeviceName.computer (i + 1))

/-- Embeds bin_packing_vlans from access_layer.py: switches listed before
computers; vlan_count -1 means the ceil(total / 7) default; devices are
dealt round-robin into the buckets. -/
def bin_packing_vlans (switch_count computer_count : ℕ)
    (vlan_count : ℤ) : List (List DeviceName) :=
  let devices := switchNames switch_count ++ computerNames computer_count
  let num_vlans := if vlan_count = -1
    then (devices.length + 6) / 7
    else vlan_count.toNat
  rrAssign (List.replicate num_vlans []) 0 devices

lemma rrAssign_length {α : Type} :
    ∀ (devices : List α) (acc : List (List α)) (i0 : ℕ),
      (rrAssign acc i0 devices).length = acc.length := by
  intro devices
  induction devices with
  | nil => intro acc i0; rfl
  | cons d rest ih =>
    intro acc i0
    simp only [rrAssign, ih, List.length_set]

lemma rrAssign_getD {α : Type} :
    ∀ (devices : List α) (acc : List (List α)) (i0 j : ℕ), j < acc.length →
      (rrAssign acc i0 devices).getD j [] =
        acc.getD j [] ++
          ((devices.enumFrom i0).filter
            (fun p => p.1 % acc.length = j)).map Prod.snd := by
  intro devices
  induction devices with
  | nil => intro acc i0 j _; simp [rrAssign, List.enumFrom]
  | cons d rest ih =>
    intro acc i0 j hj
    have hlen : 0 < acc.length := by omega
    have hset : (acc.set (i0 % acc.length)
        (acc.getD (i0 % acc.length) [] ++ [d])).length = acc.length := by
      simp
    have hrec := ih (acc.set (i0 % acc.length)
      (acc.getD (i0 % acc.length) [] ++ [d])) (i0 + 1) j (by omega)
    simp only [rrAssign]
    rw [hrec, hset]
    have henum : (d :: rest).enumFrom i0 = (i0, d) :: rest.enumFrom (i0 + 1) := by
      simp [List.enumFrom]
    rw [henum]
    by_cases hcase : i0 % acc.length = j
    · subst hcase
      have hmod : i0 % acc.length < acc.length := Nat.mod_lt _ hlen
      have hgetset : (acc.set (i0 % acc.length)
          (acc.getD (i0 % acc.length) [] ++ [d])).getD (i0 % acc.length) [] =
            acc.getD (i0 % acc.length) [] ++ [d] := by
        simp only [List.getD_eq_getElem?_getD]
        rw [List.getElem?_set_self hmod]
        rfl
      rw [hgetset]
      simp [List.filter_cons, List.append_assoc]
    · have hgetset : (acc.set (i0 % acc.length)
          (acc.getD (i0 % acc.length) [] ++ [d])).getD j [] =
            acc.getD j [] := by
        simp only [List.getD_eq_getElem?_getD]
        rw [List.getElem?_set_ne hcase]
      rw [hgetset]
      simp only [List.filter_cons]
      have hdec : (decide (i0 % acc.length = j)) = false := by simp [hcase]
      rw [hdec]
      simp

lemma replicate_getD_nil {α : Type} (n j : ℕ) :
    (List.replicate n ([] : List α)).getD j [] = [] := by
  rcases Nat.lt_or_ge j n with h | h
  · simp [List.getD_eq_getElem?_getD, List.getElem?_replicate, h]
  · have : (List.replicate n ([] : List α))[j]? = none := by
      rw [List.getElem?_eq_none]
      simpa using h
    simp [List.getD_eq_getElem?_getD, this]

/-- C6: with the automatic vlan_count of -1, bin_packing_vlans creates
ceil(totalDevices / 7) buckets, and bucket j holds exactly the devices whose
0-based position in the switches-then-computers list is congruent to j
modulo the bucket count, kept in order; in particular 8 switches and 11
computers give exactly 3 buckets, each non-empty, with 19 members in
total. -/
lemma devices_length (s c : ℕ) :
    (switchNames s ++ computerNames c).length = s + c := by
  simp [switchNames, computerNames]

lemma bin_packing_auto_eq (s c : ℕ) :
    bin_packing_vlans s c (-1) =
      rrAssign (List.replicate ((s + c + 6) / 7) [])
        0 (switchNames s ++ computerNames c) := by
  unfold bin_packing_vlans
  simp [switchNames, computerNames]

lemma bin_packing_auto_length (s c : ℕ) :
    (bin_packing_vlans s c (-1)).length = (s + c + 6) / 7 := by
  rw [bin_packing_auto_eq, rrAssign_length]
  simp

lemma bin_packing_auto_getD (s c : ℕ) (j : ℕ) (hj : j < (s + c + 6) / 7) :
    (bin_packing_vlans s c (-1)).getD j [] =
      (((switchNames s ++ computerNames c).enum).filter
        (fun p => p.1 % ((s + c + 6) / 7) = j)).map Prod.snd := by
  rw [bin_packing_auto_eq, rrAssign_getD _ _ 0 j (by simpa using hj)]
  rw [replicate_getD_nil]
  simp [List.enum]

theorem bin_packing_vlans_spec (s c : ℕ) :
    (bin_packing_vlans s c (-1)).length = (s + c + 6) / 7 ∧
      (∀ j, j < (s + c + 6) / 7 →
        (bin_packing_vlans s c (-1)).getD j [] =
          (((switchNames s ++ computerNames c).enum).filter
            (fun p => p.1 % ((s + c + 6) / 7) = j)).map Prod.snd) ∧
      (∀ i, i < s + c →
        (switchNames s ++ computerNames c).getD i (.switch 0) ∈
          (bin_packing_vlans s c (-1)).getD (i % ((s + c + 6) / 7)) []) ∧
      (bin_packing_vlans 8 11 (-1)).length = 3 ∧
      (∀ v ∈ bin_packing_vlans 8 11 (-1), v ≠ []) ∧
      ((bin_packing_vlans 8 11 (-1)).map List.length).sum = 19 := by
  have hdevlen : (switchNames s ++ computerNames c).length = s + c :=
    devices_length s c
  have hif : bin_packing_vlans s c (-1) =
      rrAssign (List.replicate ((s + c + 6) / 7) [])
        0 (switchNames s ++ computerNames c) := bin_packing_auto_eq s c
  refine ⟨bin_packing_auto_length s c, fun j hj =>
    bin_packing_auto_getD s c j hj, ?_, by rfl, by decide, by rfl⟩
  intro i hi
  · set devices := switchNames s ++ computerNames c with hdev
    set n := (s + c + 6) / 7 with hn
    have hnpos : 0 < n := by rw [hn]; omega
    have hjlt : i % n < n := Nat.mod_lt _ hnpos
    rw [hif, rrAssign_getD _ _ 0 (i % n) (by simpa using hjlt),
      replicate_getD_nil]
    simp only [List.length_replicate, List.nil_append]
    have hilen : i < devices.length := by omega
    have hgd : devices.getD i (.switch 0) = devices[i] :=
      List.getD_eq_getElem devices _ hilen
    rw [hgd]
    have henumlen : i < devices.enum.length := by simpa using hilen
    have hpair : (i, devices[i]) ∈ devices.enum := by
      have h1 := List.getElem_enum devices i henumlen
      rw [← h1]
      exact List.getElem_mem henumlen
    have hmem2 : (i, devices[i]) ∈
        devices.enum.filter (fun p => decide (p.1 % n = i % n)) :=
      List.mem_filter.mpr ⟨hpair, by simp⟩
    have hmem3 : devices[i] ∈
        (devices.enum.filter
          (fun p => decide (p.1 % n = i % n))).map Prod.snd :=
      List.mem_map_of_mem Prod.snd hmem2
    simpa [List.enum] using hmem3

/-- The device-type string chosen by assign_ip_to_device: Switch if the
substring Switch occurs in the name, else Computer. -/
inductive CfgType where
  | switchT
  | computerT
deriving Repr, DecidableEq

/-- Embeds assign_ip_to_device from access_configuration.py: the returned
dict (name, type, ip_address). -/
def assign_ip_to_device (device_name : DeviceName) (base_ip : Quad)
    (offset : ℕ) : DeviceName × CfgType × Quad :=
  (device_name,
   if hasSwitchSub device_name then .switchT else .computerT,
   int_to_ip (ip_to_int base_ip + offset))

/-- The full per-device configuration dict produced by configure_devices. -/
structure DeviceConfig where
  name : DeviceName
  ctype : CfgType
  ip_address : Quad
  subnet_mask : ℕ
  vlan_id : ℕ
  gateway : Quad
deriving Repr, DecidableEq

/-- The inner loop of configure_devices for one VLAN: device i gets the IP
at gateway + (i + 1), plus the subnet mask, the 1-based VLAN id and the
gateway. -/
def configureVlan (vlan_id : ℕ) (subnet : SubnetInfo)
    (devs : List DeviceName) : List DeviceConfig :=
  devs.enum.map (fun p =>
    let a := assign_ip_to_device p.2 subnet.first_ip (p.1 + 1)
    { name := a.1
      ctype := a.2.1
      ip_address := a.2.2
      subnet_mask := subnet.subnet_mask
      vlan_id := vlan_id
      gateway := subnet.first_ip })

/-- Embeds configure_devices from access_configuration.py: one subnet per
VLAN via calculate_vlsm on the bucket sizes, per-device configs, and the
main-switches list collecting the first device of each non-empty bucket
(the code appends vlan_devices[0] whenever the bucket loop runs). -/
def configure_devices (vlans : List (List DeviceName)) (ip_base : Quad) :
    Except VlsmErr (List DeviceConfig × List DeviceName) := do
  let total_hosts := vlans.map (fun vlan => Int.ofNat vlan.length)
  let vlsm_subnets ← calculate_vlsm ip_base total_hosts
  let pairs := vlans.zip vlsm_subnets
  let device_configurations :=
    (pairs.enum.map (fun q => configureVlan (q.1 + 1) q.2.2 q.2.1)).flatten
  let main_switches := pairs.filterMap (fun q => q.1.head?)
  return (device_configurations, main_switches)

/-- Kind test used to state the main-switch property: the device is a plain
Switch. -/
def isSwitchKind : DeviceName → Bool
  | .switch _ => true
  | _ => false

lemma collectSizes_length : ∀ (counts : List ℤ) (sizes : List ℕ),
    collectSizes counts = .ok sizes → sizes.length = counts.length := by
  intro counts
  induction counts with
  | nil => intro sizes h; cases h; rfl
  | cons h rest ih =>
    intro sizes hok
    by_cases hneg : h + 3 ≤ 0
    · simp only [collectSizes, calcSubnetSizeZ, hneg, if_true,
        except_bind_error] at hok
      cases hok
    · simp only [collectSizes, calcSubnetSizeZ, hneg, if_false,
        except_bind_ok] at hok
      cases hrest : collectSizes rest with
      | error e => rw [hrest] at hok; simp only [except_bind_error] at hok; cases hok
      | ok s2 =>
        rw [hrest] at hok
        simp only [except_bind_ok] at hok
        injection hok with h2
        subst h2
        simp [ih s2 hrest]

lemma calculate_vlsm_length (q : Quad) (counts : List ℤ) (subs : List SubnetInfo)
    (hok : calculate_vlsm q counts = .ok subs) : subs.length = counts.length := by
  cases hcs : collectSizes counts with
  | error e =>
    simp only [calculate_vlsm, hcs, except_bind_error] at hok
    cases hok
  | ok sizes =>
    simp only [calculate_vlsm, hcs, except_bind_ok] at hok
    injection hok with h2
    subst h2
    rw [vlsmWalk_length]
    have : (sortSizesDesc sizes).length = sizes.length :=
      (sortSizesDesc_perm sizes).length_eq
    rw [this, collectSizes_length counts sizes hcs]

/-- In the enumerated device list, the first index congruent to j modulo n
(for j < n, scanning from i0 ≤ j) is j itself. -/
lemma filter_enumFrom_head {α : Type} (n j : ℕ) (hj : j < n) :
    ∀ (l : List α) (i0 : ℕ) (_hle : i0 ≤ j) (hlt : j - i0 < l.length),
      ((l.enumFrom i0).filter (fun p => p.1 % n = j)).head? =
        some (j, l[j - i0]) := by
  intro l
  induction l with
  | nil => intro i0 hle hlt; simp at hlt
  | cons d rest ih =>
    intro i0 hle hlt
    have henum : (d :: rest).enumFrom i0 = (i0, d) :: rest.enumFrom (i0 + 1) := by
      simp [List.enumFrom]
    rw [henum, List.filter_cons]
    by_cases heq : i0 = j
    · subst heq
      have hmod : i0 % n = i0 := Nat.mod_eq_of_lt hj
      simp [hmod]
    · have hi0 : i0 < j := by omega
      have hpred : ¬ (i0 % n = j) := by
        rw [Nat.mod_eq_of_lt (by omega)]
        omega
      rw [if_neg (by simpa using hpred)]
      have hrec := ih (i0 + 1) (by omega) (by simp at hlt ⊢; omega)
      rw [hrec]
      have hidx : j - i0 = (j - (i0 + 1)) + 1 := by omega
      congr 1
      congr 1
      rw [← Option.some_inj, ← List.getElem?_eq_getElem,
        ← List.getElem?_eq_getElem, hidx, List.getElem?_cons_succ]

lemma zip_filterMap_head {α β : Type} :
    ∀ (l1 : List (List α)) (l2 : List β), l1.length = l2.length →
      (l1.zip l2).filterMap (fun q => q.1.head?) = l1.filterMap List.head? := by
  intro l1
  induction l1 with
  | nil => intro l2 _; rfl
  | cons v rest ih =>
    intro l2 hlen
    cases l2 with
    | nil => simp at hlen
    | cons b rest2 =>
      simp only [List.zip_cons_cons, List.filterMap_cons]
      cases hv : v.head? with
      | none => simp [ih rest2 (by simpa using hlen)]
      | some a => simp [ih rest2 (by simpa using hlen)]

lemma filterMap_head_getD {α : Type} :
    ∀ (L : List (List α)), (∀ v ∈ L, v ≠ []) →
      (L.filterMap List.head?).length = L.length ∧
        ∀ (j : ℕ) (dflt : α),
          (L.filterMap List.head?).getD j dflt = (L.getD j []).headD dflt := by
  intro L
  induction L with
  | nil => intro _; exact ⟨rfl, by intro j dflt; cases j <;> rfl⟩
  | cons v rest ih =>
    intro hne
    rcases List.exists_cons_of_ne_nil (hne v (by simp)) with ⟨a, t, rfl⟩
    rcases ih (fun x hx => hne x (by simp [hx])) with ⟨ihl, ihd⟩
    constructor
    · simp [List.filterMap_cons, ihl]
    · intro j dflt
      cases j with
      | zero => simp [List.filterMap_cons]
      | succ k =>
        simp only [List.filterMap_cons, List.head?_cons, List.getD_cons_succ]
        exact ihd k dflt

lemma devices_getElem (s c i : ℕ) (_hi : i < s + c)
    (hi2 : i < (switchNames s ++ computerNames c).length) :
    (switchNames s ++ computerNames c)[i] =
      if i < s then DeviceName.switch (i + 1)
      else DeviceName.computer (i - s + 1) := by
  by_cases hcase : i < s
  · rw [if_pos hcase]
    rw [List.getElem_append_left (by simpa [switchNames] using hcase)]
    simp [switchNames]
  · rw [if_neg hcase]
    rw [List.getElem_append_right (by simpa [switchNames] using hcase)]
    simp [switchNames, computerNames]

lemma bucket_head (s c j : ℕ) (hj : j < (s + c + 6) / 7)
    (hj2 : j < (switchNames s ++ computerNames c).length) :
    ((bin_packing_vlans s c (-1)).getD j []).head? =
      some ((switchNames s ++ computerNames c)[j]) := by
  have hjlen : j < s + c := by omega
  rw [bin_packing_auto_getD s c j hj, List.head?_map]
  have hh := filter_enumFrom_head ((s + c + 6) / 7) j hj
    (switchNames s ++ computerNames c) 0 (by omega)
    (by rw [devices_length]; omega)
  have henum : (switchNames s ++ computerNames c).enum =
      (switchNames s ++ computerNames c).enumFrom 0 := rfl
  rw [henum, hh]
  rfl

lemma bucket_mem_decompose (s c j : ℕ) (hj : j < (s + c + 6) / 7)
    (d : DeviceName) (hd : d ∈ (bin_packing_vlans s c (-1)).getD j []) :
    ∃ i, ∃ hi2 : i < (switchNames s ++ computerNames c).length,
      i < s + c ∧ i % ((s + c + 6) / 7) = j ∧
      d = (switchNames s ++ computerNames c)[i] := by
  rw [bin_packing_auto_getD s c j hj] at hd
  rcases List.mem_map.mp hd with ⟨p, hp, rfl⟩
  rcases List.mem_filter.mp hp with ⟨hpe, hpf⟩
  have hp2 : (p.1, p.2) ∈ (switchNames s ++ computerNames c).enum := by
    simpa using hpe
  have hget := List.mk_mem_enum_iff_getElem?.mp hp2
  have hlt : p.1 < (switchNames s ++ computerNames c).length :=
    (List.getElem?_eq_some_iff.mp hget).1
  refine ⟨p.1, hlt, by rwa [devices_length] at hlt,
    by simpa using hpf, ?_⟩
  have := List.getElem?_eq_getElem (h := hlt)
  rw [this] at hget
  exact (Option.some.inj hget).symm

lemma buckets_ne_nil (s c : ℕ) :
    ∀ v ∈ bin_packing_vlans s c (-1), v ≠ [] := by
  intro v hv
  rcases List.mem_iff_getElem.mp hv with ⟨j, hj, hvj⟩
  have hjn : j < (s + c + 6) / 7 := by
    rwa [bin_packing_auto_length] at hj
  have hd : (bin_packing_vlans s c (-1)).getD j [] = v := by
    rw [List.getD_eq_getElem _ _ hj, hvj]
  have hh := bucket_head s c j hjn (by rw [devices_length]; omega)
  rw [hd] at hh
  intro hnil
  rw [hnil] at hh
  cases hh

/-- C10: in the pipeline, where the VLAN buckets come from bin_packing_vlans,
the main-switches list that configure_devices returns holds, for every bucket
that contains at least one device of kind Switch, exactly the first switch of
that bucket (which is also the bucket's first device). -/
theorem configure_devices_first_switch (s c : ℕ) (q : Quad) :
    ∃ configs mains,
      configure_devices (bin_packing_vlans s c (-1)) q = .ok (configs, mains) ∧
        mains.length = (bin_packing_vlans s c (-1)).length ∧
        ∀ j, j < (bin_packing_vlans s c (-1)).length →
          (∃ d ∈ (bin_packing_vlans s c (-1)).getD j [], isSwitchKind d = true) →
            mains.getD j (.computer 0) =
                (((bin_packing_vlans s c (-1)).getD j []).find?
                  isSwitchKind).getD (.computer 0) ∧
              isSwitchKind (mains.getD j (.computer 0)) = true := by
  set vlans := bin_packing_vlans s c (-1) with hvlans
  have hsizes : collectSizes (vlans.map (fun v => Int.ofNat v.length)) =
      .ok ((vlans.map List.length).map calculate_subnet_size) := by
    have h0 := collectSizes_ok (vlans.map List.length)
    rw [List.map_map] at h0
    exact h0
  set subs := vlsmWalk (ip_to_int q)
    (sortSizesDesc ((vlans.map List.length).map calculate_subnet_size))
    with hsubs
  have hvl : calculate_vlsm q (vlans.map fun v => Int.ofNat v.length) =
      .ok subs := by
    simp only [calculate_vlsm, hsizes, except_bind_ok]
    rfl
  have hsublen : vlans.length = subs.length := by
    rw [hsubs, vlsmWalk_length]
    have := (sortSizesDesc_perm
      ((vlans.map List.length).map calculate_subnet_size)).length_eq
    rw [this]
    simp
  have hcfg : configure_devices vlans q =
      .ok (((vlans.zip subs).enum.map
              (fun q2 => configureVlan (q2.1 + 1) q2.2.2 q2.2.1)).flatten,
            (vlans.zip subs).filterMap (fun q2 => q2.1.head?)) := by
    simp only [configure_devices, hvl, except_bind_ok]
    rfl
  have hmains : (vlans.zip subs).filterMap (fun q2 => q2.1.head?) =
      vlans.filterMap List.head? :=
    zip_filterMap_head vlans subs hsublen
  rcases filterMap_head_getD vlans (buckets_ne_nil s c) with ⟨hml, hmd⟩
  refine ⟨_, _, hcfg, by rw [hmains]; exact hml, ?_⟩
  intro j hj hsw
  have hjn : j < (s + c + 6) / 7 := by
    rwa [bin_packing_auto_length] at hj
  rcases hsw with ⟨d, hdmem, hdsw⟩
  rcases bucket_mem_decompose s c j hjn d hdmem with ⟨i, hi2, hi, hmod, rfl⟩
  have hlt_s : i < s := by
    by_contra hge
    rw [devices_getElem s c i hi hi2, if_neg hge] at hdsw
    simp [isSwitchKind] at hdsw
  have hjs : j < s := by
    have : j ≤ i := by
      rw [← hmod]
      exact Nat.mod_le i _
    omega
  have hjlen : j < s + c := by omega
  have hjlen2 : j < (switchNames s ++ computerNames c).length := by
    rw [devices_length]
    exact hjlen
  have hheadj := bucket_head s c j hjn hjlen2
  have hdevj : (switchNames s ++ computerNames c)[j] =
      DeviceName.switch (j + 1) := by
    rw [devices_getElem s c j hjlen hjlen2, if_pos hjs]
  have hbne : (bin_packing_vlans s c (-1)).getD j [] ≠ [] := by
    intro hnil
    rw [hnil] at hheadj
    cases hheadj
  have hheadval : ((bin_packing_vlans s c (-1)).getD j []).head hbne =
      DeviceName.switch (j + 1) := by
    have h1 := List.head?_eq_head hbne
    have h2 := Option.some.inj (h1.symm.trans hheadj)
    rw [h2]
    exact hdevj
  have hfind : ((bin_packing_vlans s c (-1)).getD j []).find? isSwitchKind =
      some (DeviceName.switch (j + 1)) := by
    conv_lhs => rw [← List.head_cons_tail _ hbne, hheadval]
    exact List.find?_cons_of_pos _ (by simp [isSwitchKind])
  have hmainsj : ((vlans.zip subs).filterMap
      (fun q2 => q2.1.head?)).getD j (.computer 0) =
        DeviceName.switch (j + 1) := by
    rw [hmains, hmd j (.computer 0)]
    show ((bin_packing_vlans s c (-1)).getD j []).headD (.computer 0) = _
    rw [List.headD_eq_head?_getD, List.head?_eq_head hbne, hheadval]
    rfl
  constructor
  · rw [hmainsj]
    show _ = (((bin_packing_vlans s c (-1)).getD j []).find?
      isSwitchKind).getD (.computer 0)
    rw [hfind]
    rfl
  · rw [hmainsj]
    rfl

/-- Witness for bin_packing_vlans_spec at switchCount 8, computerCount 11:
bucket 1 and the placement of device 5 (Switch_6). -/
theorem bin_packing_vlans_spec_witness :
    ((bin_packing_vlans 8 11 (-1)).getD 1 [] =
        (((switchNames 8 ++ computerNames 11).enum).filter
          (fun p => p.1 % ((8 + 11 + 6) / 7) = 1)).map Prod.snd) ∧
      ((switchNames 8 ++ computerNames 11).getD 5 (.switch 0) ∈
        (bin_packing_vlans 8 11 (-1)).getD (5 % ((8 + 11 + 6) / 7)) []) :=
  ⟨(bin_packing_vlans_spec 8 11).2.1 1 (by decide),
   (bin_packing_vlans_spec 8 11).2.2.1 5 (by decide)⟩

/-- Witness for configure_devices_first_switch at 8 switches, 11 computers:
bucket 0 contains switches, and the recorded main device for VLAN 1 is its
first switch. -/
theorem configure_devices_first_switch_witness :
    ∃ configs mains,
      configure_devices (bin_packing_vlans 8 11 (-1)) ⟨192, 168, 0, 0⟩ =
          .ok (configs, mains) ∧
        mains.getD 0 (.computer 0) =
            (((bin_packing_vlans 8 11 (-1)).getD 0 []).find?
              isSwitchKind).getD (.computer 0) ∧
          isSwitchKind (mains.getD 0 (.computer 0)) = true := by
  obtain ⟨configs, mains, h1, _h2, h3⟩ :=
    configure_devices_first_switch 8 11 ⟨192, 168, 0, 0⟩
  have hlen : (bin_packing_vlans 8 11 (-1)).length = 3 := by rfl
  have h4 := h3 0 (by rw [hlen]; decide) ⟨.switch 1, by decide, by decide⟩
  exact ⟨configs, mains, h1, h4.1, h4.2⟩

/-- The device_type strings of graph_creation.py. -/
inductive DevType where
  | Router
  | MultiLayerSwitch
  | Switch
  | Computer
deriving Repr, DecidableEq

/-- Embeds the Device class of graph_creation.py. -/
structure Device where
  name : DeviceName
  device_type : DevType
  routing : Bool
deriving Repr, DecidableEq

/-- Router_1 .. Router_n as built by the GraphManager constructor. -/
def routerDevices (n : ℕ) : List Device :=
  (List.range n).map (fun i => ⟨.router (i + 1), .Router, true⟩)

/-- MultiLayerSwitch_1 .. MultiLayerSwitch_n. -/
def mlsDevices (n : ℕ) : List Device :=
  (List.range n).map (fun i => ⟨.mls (i + 1), .MultiLayerSwitch, true⟩)

/-- Switch_1 .. Switch_n. -/
def switchDevices (n : ℕ) : List Device :=
  (List.range n).map (fun i => ⟨.switch (i + 1), .Switch, false⟩)

/-- Computer_1 .. Computer_n. -/
def computerDevices (n : ℕ) : List Device :=
  (List.range n).map (fun i => ⟨.computer (i + 1), .Computer, false⟩)

/-- The sort key of assign_devices_to_layers: d.device_type == Router,
True before False because of reverse=True. -/
def routerKey (d : Device) : ℕ :=
  if d.device_type = DevType.Router then 1 else 0

/-- Python's sorted(..., key=lambda d: d.device_type == Router,
reverse=True): a stable descending sort on the Boolean key. -/
def sortRoutingDevices (devs : List Device) : List Device :=
  List.insertionSort (fun a b => routerKey b ≤ routerKey a) devs

/-- MINIMUM_ROUTING from graph_creation.py. -/
def MINIMUM_ROUTING : ℕ := 4

/-- The three layer lists built by assign_devices_to_layers. -/
structure Layers where
  Core : List Device
  Distribution : List Device
  Access : List Device
deriving Repr, DecidableEq

/-- Embeds GraphManager.assign_devices_to_layers: routers and multilayer
switches form the routing pool with routers sorted first; below the
threshold everything routing goes to Distribution and Core stays empty;
otherwise the first min(poolSize, 2) go to Core and the rest to
Distribution; switches and computers always form Access. -/
def assign_devices_to_layers (routers mls switches computers : List Device) :
    Layers :=
  let routing_devices := sortRoutingDevices (routers ++ mls)
  if routing_devices.length < MINIMUM_ROUTING then
    { Core := []
      Distribution := routing_devices
      Access := switches ++ computers }
  else
    let core_devices := min routing_devices.length 2
    { Core := routing_devices.take core_devices
      Distribution := routing_devices.drop core_devices
      Access := switches ++ computers }

/-- The routing pool is already ordered routers-then-mls, and the stable
descending sort on the Router key keeps it that way. -/
lemma sortRoutingDevices_routers_first (r m : ℕ) :
    sortRoutingDevices (routerDevices r ++ mlsDevices m) =
      routerDevices r ++ mlsDevices m := by
  apply List.Sorted.insertionSort_eq
  apply List.pairwise_append.mpr
  refine ⟨?_, ?_, ?_⟩
  · apply List.Pairwise.map
    · intro a b hab
      exact hab
    · apply List.pairwise_iff_forall_sublist.mpr
      intro a b _
      simp [routerKey]
  · apply List.Pairwise.map
    · intro a b hab
      exact hab
    · apply List.pairwise_iff_forall_sublist.mpr
      intro a b _
      simp [routerKey]
  · intro a ha b hb
    rcases List.mem_map.mp ha with ⟨i, _, rfl⟩
    rcases List.mem_map.mp hb with ⟨k, _, rfl⟩
    simp [routerKey]

/-- C7: the layer assigner sorts routers before multilayer switches; below
the threshold of 4 routing devices everything routing becomes Distribution
with an empty Core; otherwise exactly the first min(poolSize, 2) = 2 routing
devices become Core and the rest Distribution, with switches and computers
always in Access; with 2 routers and 2 multilayer switches, Core and
Distribution each hold exactly 2 devices and Core is non-empty. -/
theorem assign_devices_to_layers_spec (r m s c : ℕ) :
    (sortRoutingDevices (routerDevices r ++ mlsDevices m) =
        routerDevices r ++ mlsDevices m) ∧
      (r + m < 4 →
        assign_devices_to_layers (routerDevices r) (mlsDevices m)
            (switchDevices s) (computerDevices c) =
          { Core := []
            Distribution := routerDevices r ++ mlsDevices m
            Access := switchDevices s ++ computerDevices c }) ∧
      (4 ≤ r + m →
        assign_devices_to_layers (routerDevices r) (mlsDevices m)
            (switchDevices s) (computerDevices c) =
          { Core := (routerDevices r ++ mlsDevices m).take 2
            Distribution := (routerDevices r ++ mlsDevices m).drop 2
            Access := switchDevices s ++ computerDevices c } ∧
        (assign_devices_to_layers (routerDevices r) (mlsDevices m)
            (switchDevices s) (computerDevices c)).Core.length = 2) ∧
      (assign_devices_to_layers (routerDevices 2) (mlsDevices 2)
          (switchDevices s) (computerDevices c)).Core.length = 2 ∧
      (assign_devices_to_layers (routerDevices 2) (mlsDevices 2)
          (switchDevices s) (computerDevices c)).Distribution.length = 2 ∧
      (assign_devices_to_layers (routerDevices 2) (mlsDevices 2)
          (switchDevices s) (computerDevices c)).Core ≠ [] := by
  have hsort := sortRoutingDevices_routers_first r m
  have hpool : (routerDevices r ++ mlsDevices m).length = r + m := by
    simp [routerDevices, mlsDevices]
  refine ⟨hsort, ?_, ?_, by rfl, by rfl, ?_⟩
  · intro hlt
    unfold assign_devices_to_layers
    rw [hsort]
    rw [if_pos (by rw [hpool]; exact hlt)]
  · intro hge
    unfold assign_devices_to_layers
    rw [hsort]
    rw [if_neg (by rw [hpool]; unfold MINIMUM_ROUTING; omega)]
    have hmin : min (routerDevices r ++ mlsDevices m).length 2 = 2 := by
      rw [hpool]; omega
    rw [hmin]
    refine ⟨rfl, ?_⟩
    simp only [List.length_take, hpool]
    omega
  · intro hcontra
    have h22 : (assign_devices_to_layers (routerDevices 2) (mlsDevices 2)
        (switchDevices s) (computerDevices c)).Core =
          [⟨.router 1, .Router, true⟩, ⟨.router 2, .Router, true⟩] := rfl
    rw [h22] at hcontra
    cases hcontra

/-- Witness for assign_devices_to_layers_spec: the collapse branch at
1 router + 2 multilayer switches, and the three-tier branch at 2 + 2. -/
theorem assign_devices_to_layers_spec_witness :
    (assign_devices_to_layers (routerDevices 1) (mlsDevices 2)
        (switchDevices 4) (computerDevices 15) =
      { Core := []
        Distribution := routerDevices 1 ++ mlsDevices 2
        Access := switchDevices 4 ++ computerDevices 15 }) ∧
      (assign_devices_to_layers (routerDevices 2) (mlsDevices 2)
          (switchDevices 4) (computerDevices 15) =
        { Core := (routerDevices 2 ++ mlsDevices 2).take 2
          Distribution := (routerDevices 2 ++ mlsDevices 2).drop 2
          Access := switchDevices 4 ++ computerDevices 15 } ∧
        (assign_devices_to_layers (routerDevices 2) (mlsDevices 2)
            (switchDevices 4) (computerDevices 15)).Core.length = 2) :=
  ⟨(assign_devices_to_layers_spec 1 2 4 15).2.1 (by decide),
   (assign_devices_to_layers_spec 2 2 4 15).2.2.1 (by decide)⟩

/-- The layer attribute values of top_layers.py. -/
inductive Layer where
  | Core
  | Distribution
  | Access
deriving Repr, DecidableEq

/-- Embeds create_core_layer from top_layers.py: one directed edge
(core_device, dist_device) for every pair. -/
def create_core_layer (core_devices dist_devices : List DeviceName) :
    List (DeviceName × DeviceName) :=
  (core_devices.map (fun core_device =>
    dist_devices.map (fun dist_device => (core_device, dist_device)))).flatten

/-- The pairwise i < j loop of create_distribution_layer. -/
def pairsUpper {α : Type} : List α → List (α × α)
  | [] => []
  | x :: rest => rest.map (fun y => (x, y)) ++ pairsUpper rest

/-- Embeds create_distribution_layer from top_layers.py: every Distribution
device points at every access switch, and the Distribution devices are
pairwise interconnected. -/
def create_distribution_layer (dist_devices access_switches : List DeviceName) :
    List (DeviceName × DeviceName) :=
  (dist_devices.map (fun dist_device =>
    access_switches.map (fun a => (dist_device, a)))).flatten ++
    pairsUpper dist_devices

/-- The directed graph built by build_topology: its node list, the final
layer attribute of each node, and its directed edge list. -/
structure TopGraph where
  nodes : List DeviceName
  layerTag : DeviceName → Option Layer
  edges : List (DeviceName × DeviceName)

/-- Embeds build_topology from top_layers.py.  Nodes are added Core, then
Distribution, then Access (later add_nodes_from calls override the layer
attribute, so Access wins over Distribution which wins over Core); if the
Core list is empty, every Distribution device is retagged Core and no
Core-Distribution edges are added. -/
def build_topology (core_devices dist_devices access_switches :
    List DeviceName) : TopGraph :=
  { nodes := core_devices ++ dist_devices ++ access_switches
    layerTag := fun x =>
      if core_devices = [] ∧ x ∈ dist_devices then some Layer.Core
      else if x ∈ access_switches then some Layer.Access
      else if x ∈ dist_devices then some Layer.Distribution
      else if x ∈ core_devices then some Layer.Core
      else none
    edges :=
      (if core_devices = [] then []
       else create_core_layer core_devices dist_devices) ++
        create_distribution_layer dist_devices access_switches }

lemma pairsUpper_mem {α : Type} :
    ∀ (l : List α) (e : α × α), e ∈ pairsUpper l → e.1 ∈ l ∧ e.2 ∈ l := by
  intro l
  induction l with
  | nil => intro e he; cases he
  | cons x rest ih =>
    intro e he
    rcases List.mem_append.mp he with h1 | h2
    · rcases List.mem_map.mp h1 with ⟨y, hy, rfl⟩
      exact ⟨by simp, by simp [hy]⟩
    · rcases ih e h2 with ⟨ha, hb⟩
      exact ⟨by simp [ha], by simp [hb]⟩

/-- C8: when the Core list is empty, every node that entered the call in the
Distribution list carries the Core label in the returned graph, every edge of
the graph originates at a former-Distribution node (which is now labeled
Core), and every edge target is either an access switch or another
former-Distribution node (the redundancy mesh). -/
theorem build_topology_collapse (dist_devices access_switches :
    List DeviceName) :
    (∀ x ∈ dist_devices,
      (build_topology [] dist_devices access_switches).layerTag x =
        some Layer.Core) ∧
      (∀ e ∈ (build_topology [] dist_devices access_switches).edges,
        e.1 ∈ dist_devices ∧
          (build_topology [] dist_devices access_switches).layerTag e.1 =
            some Layer.Core) ∧
      (∀ e ∈ (build_topology [] dist_devices access_switches).edges,
        e.2 ∈ access_switches ∨ e.2 ∈ dist_devices) := by
  have htag : ∀ x ∈ dist_devices,
      (build_topology [] dist_devices access_switches).layerTag x =
        some Layer.Core := by
    intro x hx
    show (if ([] : List DeviceName) = [] ∧ x ∈ dist_devices then
        some Layer.Core else _) = some Layer.Core
    rw [if_pos ⟨rfl, hx⟩]
  have hedge : ∀ e ∈ (build_topology [] dist_devices access_switches).edges,
      e.1 ∈ dist_devices ∧ (e.2 ∈ access_switches ∨ e.2 ∈ dist_devices) := by
    intro e he
    have he2 : e ∈ create_distribution_layer dist_devices access_switches := by
      have : (build_topology [] dist_devices access_switches).edges =
          create_distribution_layer dist_devices access_switches := by
        show (if ([] : List DeviceName) = [] then []
          else create_core_layer [] dist_devices) ++ _ = _
        rw [if_pos rfl]
        rfl
      rwa [this] at he
    rcases List.mem_append.mp he2 with h1 | h2
    · rcases List.mem_flatten.mp h1 with ⟨sub, hsub, hesub⟩
      rcases List.mem_map.mp hsub with ⟨dd, hdd, rfl⟩
      rcases List.mem_map.mp hesub with ⟨a, ha, rfl⟩
      exact ⟨hdd, Or.inl ha⟩
    · rcases pairsUpper_mem dist_devices e h2 with ⟨ha, hb⟩
      exact ⟨ha, Or.inr hb⟩
  exact ⟨htag, fun e he => ⟨(hedge e he).1, htag e.1 (hedge e he).1⟩,
    fun e he => (hedge e he).2⟩

/-- Witness for build_topology_collapse with two multilayer switches
collapsing onto one access switch. -/
theorem build_topology_collapse_witness :
    ((build_topology [] [.mls 1, .mls 2] [.switch 1]).layerTag (.mls 1) =
        some Layer.Core) ∧
      ((DeviceName.mls 1, DeviceName.switch 1) ∈
        (build_topology [] [.mls 1, .mls 2] [.switch 1]).edges) ∧
      ((DeviceName.mls 1, DeviceName.switch 1).1 ∈
          [DeviceName.mls 1, DeviceName.mls 2] ∧
        (build_topology [] [.mls 1, .mls 2] [.switch 1]).layerTag
            (DeviceName.mls 1, DeviceName.switch 1).1 = some Layer.Core) ∧
      ((DeviceName.mls 1, DeviceName.switch 1).2 ∈ [DeviceName.switch 1] ∨
        (DeviceName.mls 1, DeviceName.switch 1).2 ∈
          [DeviceName.mls 1, DeviceName.mls 2]) :=
  ⟨(build_topology_collapse [.mls 1, .mls 2] [.switch 1]).1
      (.mls 1) (by decide),
   by decide,
   (build_topology_collapse [.mls 1, .mls 2] [.switch 1]).2.1
      (DeviceName.mls 1, DeviceName.switch 1) (by decide),
   (build_topology_collapse [.mls 1, .mls 2] [.switch 1]).2.2
      (DeviceName.mls 1, DeviceName.switch 1) (by decide)⟩

/-- One main-access-switch record as configure_top_layers reads it: the
VLAN ID, the Gateway dotted quad and the Subnet Mask length. -/
structure MainAccessCfg where
  vlanId : ℕ
  gateway : Quad
  subnetMask : ℕ
deriving Repr, DecidableEq

/-- ip_network(gateway/mask, strict=False): the network address obtained by
clearing the host bits of the gateway. -/
def netFloor (gw mask : ℕ) : ℕ :=
  gw / 2 ^ (32 - mask) * 2 ^ (32 - mask)

/-- list(net.hosts())[-1] for a network of 2^(32-mask) addresses with
mask at most 30: the last usable address, network + size - 2. -/
def lastHost (net mask : ℕ) : ℕ := net + 2 ^ (32 - mask) - 2

/-- One comparison step of the highest-subnet loop in configure_top_layers:
replace the running maximum when the candidate's last host is strictly
later. -/
def hstep (acc : Option (ℕ × ℕ)) (p : ℕ × ℕ) : Option (ℕ × ℕ) :=
  match acc with
  | none => some p
  | some (hn, hm) =>
    if lastHost hn hm < lastHost p.1 p.2 then some p else some (hn, hm)

/-- The (network, mask) pairs reconstructed from the main access configs. -/
def netMaskList (configs : List MainAccessCfg) : List (ℕ × ℕ) :=
  configs.map (fun cfg => (netFloor (quadVal cfg.gateway) cfg.subnetMask,
    cfg.subnetMask))

/-- Proof-side abbreviation: the (network, mask) pair a subnet contributes to
the highest-subnet scan once wrapped as a main access config. -/
def netProj (sub : SubnetInfo) : ℕ × ℕ :=
  (netFloor (quadVal sub.first_ip) sub.subnet_mask, sub.subnet_mask)

/-- The highest_subnet computation of configure_top_layers: fold the
strict-improvement comparison over the reconstructed networks. -/
def highestSubnet (configs : List MainAccessCfg) : Option (ℕ × ℕ) :=
  (netMaskList configs).foldl hstep none

/-- The k-th value produced by the subnet generator (0-indexed): the
highest network plus k + 1 steps of the block size; ipaddress.ip_address
raises once the value leaves the 32-bit space, so nothing is produced
then. -/
def nextLinkSubnet (hn hm k : ℕ) : Option ℕ :=
  let v := hn + (k + 1) * 2 ^ (32 - hm)
  if v < 2 ^ 32 then some v else none

/-- The Distribution-layer devices configure_top_layers extracts from the
graph's layer attributes. -/
def topDistDevices (G : TopGraph) : List DeviceName :=
  G.nodes.filter (fun n => G.layerTag n = some Layer.Distribution)

/-- The Core-layer devices configure_top_layers extracts from the graph. -/
def topCoreDevices (G : TopGraph) : List DeviceName :=
  G.nodes.filter (fun n => G.layerTag n = some Layer.Core)

/-- The used_dist_core_subnets allocation of configure_top_layers: scan the
Distribution devices (outer) against the Core devices (inner), and give the
k-th pair joined by an edge the k-th generated subnet.  When there are no
access configs the Python crashes on the first generator use; no allocation
is modelled then. -/
def linkSubnets (G : TopGraph) (configs : List MainAccessCfg) :
    List ((DeviceName × DeviceName) × Option ℕ) :=
  match highestSubnet configs with
  | none => []
  | some (hn, hm) =>
    let pairs := ((topDistDevices G).map (fun dist_dev =>
      ((topCoreDevices G).filter
        (fun core_dev => (dist_dev, core_dev) ∈ G.edges)).map
          (fun core_dev => (dist_dev, core_dev)))).flatten
    pairs.enum.map (fun p => (p.2, nextLinkSubnet hn hm p.1))

/-- The main access configs handed from configure_devices to
configure_top_layers: VLAN i + 1 with the gateway (first usable address) and
mask of the i-th VLSM subnet. -/
def configsOfSubs (subs : List SubnetInfo) : List MainAccessCfg :=
  subs.enum.map (fun p =>
    { vlanId := p.1 + 1, gateway := p.2.first_ip, subnetMask := p.2.subnet_mask })

lemma hfold_max : ∀ (l : List (ℕ × ℕ)) (v0 : ℕ × ℕ),
    ∃ v, l.foldl hstep (some v0) = some v ∧ (v = v0 ∨ v ∈ l) ∧
      lastHost v0.1 v0.2 ≤ lastHost v.1 v.2 ∧
      ∀ p ∈ l, lastHost p.1 p.2 ≤ lastHost v.1 v.2 := by
  intro l
  induction l with
  | nil => intro v0; exact ⟨v0, rfl, Or.inl rfl, le_rfl, by simp⟩
  | cons p rest ih =>
    intro v0
    by_cases hcmp : lastHost v0.1 v0.2 < lastHost p.1 p.2
    · rcases ih p with ⟨v, hfold, hmem, hle, hall⟩
      refine ⟨v, ?_, ?_, by omega, ?_⟩
      · simpa [List.foldl_cons, hstep, hcmp]
      · rcases hmem with rfl | hv
        · exact Or.inr (by simp)
        · exact Or.inr (by simp [hv])
      · intro x hx
        rcases List.mem_cons.mp hx with rfl | hx'
        · omega
        · exact hall x hx'
    · rcases ih v0 with ⟨v, hfold, hmem, hle, hall⟩
      refine ⟨v, ?_, ?_, hle, ?_⟩
      · have hs : hstep (some v0) p = some v0 := by
          simp [hstep, hcmp]
        simpa [List.foldl_cons, hs]
      · rcases hmem with rfl | hv
        · exact Or.inl rfl
        · exact Or.inr (by simp [hv])
      · intro x hx
        rcases List.mem_cons.mp hx with rfl | hx'
        · omega
        · exact hall x hx'

lemma highestSubnet_max (configs : List MainAccessCfg)
    (hne : netMaskList configs ≠ []) :
    ∃ v, highestSubnet configs = some v ∧ v ∈ netMaskList configs ∧
      ∀ p ∈ netMaskList configs, lastHost p.1 p.2 ≤ lastHost v.1 v.2 := by
  unfold highestSubnet
  rcases hl : netMaskList configs with _ | ⟨p0, rest⟩
  · exact absurd hl hne
  · have hstep0 : hstep none p0 = some p0 := rfl
    rcases hfold_max rest p0 with ⟨v, hfold, hmem, hle, hall⟩
    refine ⟨v, ?_, ?_, ?_⟩
    · simpa [List.foldl_cons, hstep0]
    · rcases hmem with rfl | hv
      · simp
      · simp [hv]
    · intro x hx
      rcases List.mem_cons.mp hx with rfl | hx'
      · omega
      · exact hall x hx'

/-- Under block alignment, every subnet emitted by the walk reconstructs to
its own true network: clearing the host bits of the stored gateway recovers
the cursor value printed in the range, and the mask length encodes the block
size. -/
lemma vlsmWalk_net_props : ∀ (sizes : List ℕ) (cur : ℕ),
    (∀ s ∈ sizes, ∃ e, 2 ≤ e ∧ e ≤ 32 ∧ s = 2 ^ e) →
    (∀ s ∈ sizes, s ∣ cur) →
    cur + sizes.sum ≤ 2 ^ 32 →
    List.Sorted (· ≥ ·) sizes →
    ∀ sub ∈ vlsmWalk cur sizes,
      netFloor (quadVal sub.first_ip) sub.subnet_mask = quadVal sub.rangeQ ∧
        2 ^ (32 - sub.subnet_mask) = sub.size := by
  intro sizes
  induction sizes with
  | nil => intro cur _ _ _ _ sub hsub; cases hsub
  | cons s rest ih =>
    intro cur hpows hdvd hov hsorted sub hsub
    rcases hpows s (by simp) with ⟨e, he2, he32, rfl⟩
    have hsum : ((2 ^ e) :: rest).sum = 2 ^ e + rest.sum := by simp
    have hs4 : 4 ≤ 2 ^ e := by
      calc (4 : ℕ) = 2 ^ 2 := by norm_num
        _ ≤ 2 ^ e := pow_le_pow_right₀ one_le_two he2
    rcases List.mem_cons.mp hsub with rfl | htail
    · constructor
      · show netFloor (quadVal (int_to_ip (cur + 1))) (32 - ceilLog2 (2 ^ e)) =
          quadVal (int_to_ip cur)
        have hcur1 : cur + 1 < 2 ^ 32 := by omega
        have hcur0 : cur < 2 ^ 32 := by omega
        rw [quadVal_int_to_ip, quadVal_int_to_ip,
          Nat.mod_eq_of_lt hcur1, Nat.mod_eq_of_lt hcur0,
          ceilLog2_pow]
        unfold netFloor
        have h32 : 32 - (32 - e) = e := by omega
        rw [h32]
        rcases hdvd (2 ^ e) (by simp) with ⟨q2, rfl⟩
        have hdiv : (2 ^ e * q2 + 1) / 2 ^ e = q2 := by
          rw [Nat.mul_add_div (by positivity)]
          simp [Nat.div_eq_of_lt (show 1 < 2 ^ e by omega)]
        rw [hdiv]
        ring
      · show 2 ^ (32 - (32 - ceilLog2 (2 ^ e))) = 2 ^ e
        rw [ceilLog2_pow]
        congr 1
        omega
    · apply ih (cur + 2 ^ e) _ _ (by omega) hsorted.of_cons sub htail
      · intro x hx
        exact hpows x (by simp [hx])
      · intro x hx
        have hxle : x ≤ 2 ^ e :=
          List.rel_of_sorted_cons hsorted x hx
        rcases hpows x (by simp [hx]) with ⟨ex, _, _, rfl⟩
        have hexe : ex ≤ e := by
          by_contra hgt
          push_neg at hgt
          have : 2 ^ e < 2 ^ ex := pow_lt_pow_right₀ one_lt_two hgt
          omega
        exact Nat.dvd_add (hdvd _ (by simp [hx])) (pow_dvd_pow 2 hexe)

/-- C9 (amended): when the base address is aligned to every allocated block
size and the allocation does not overflow, every point-to-point subnet that
configure_top_layers generates for a Distribution-Core edge starts past the
end of every VLAN subnet produced by calculate_vlsm in the same run: the
generator starts one whole block after the access subnet with the highest
last-usable address and steps forward by whole blocks, so no generated link
subnet ever reuses or overlaps an access subnet. -/
theorem configure_top_layers_links_disjoint (q : Quad) (counts : List ℕ)
    (G : TopGraph) (subs : List SubnetInfo)
    (halign : ∀ h ∈ counts, calculate_subnet_size h ∣ ip_to_int q)
    (hov : ip_to_int q + (counts.map calculate_subnet_size).sum ≤ 2 ^ 32)
    (hok : calculate_vlsm q (counts.map Int.ofNat) = .ok subs) :
    ∀ pr ∈ linkSubnets G (configsOfSubs subs), ∀ g, pr.2 = some g →
      ∀ sub ∈ subs, quadVal sub.rangeQ + sub.size ≤ g := by
  have hcs := collectSizes_ok counts
  have hsubs : subs =
      vlsmWalk (ip_to_int q)
        (sortSizesDesc (counts.map calculate_subnet_size)) := by
    simp only [calculate_vlsm, hcs, except_bind_ok] at hok
    exact (Except.ok.inj hok).symm
  set B := ip_to_int q with hB
  set sizes := sortSizesDesc (counts.map calculate_subnet_size) with hsz
  have hperm : sizes.Perm (counts.map calculate_subnet_size) :=
    sortSizesDesc_perm _
  have hpows : ∀ s ∈ sizes, ∃ e, 2 ≤ e ∧ e ≤ 32 ∧ s = 2 ^ e := by
    intro s hs
    have hmem : s ∈ counts.map calculate_subnet_size := hperm.mem_iff.mp hs
    rcases List.mem_map.mp hmem with ⟨h, _, rfl⟩
    refine ⟨ceilLog2 (h + 3), ?_, ?_, rfl⟩
    · by_contra hlt
      push_neg at hlt
      have h4 := calculate_subnet_size_pos h
      have : (2 : ℕ) ^ ceilLog2 (h + 3) ≤ 2 ^ 1 :=
        pow_le_pow_right₀ one_le_two (by omega)
      have hcs2 : calculate_subnet_size h = 2 ^ ceilLog2 (h + 3) := rfl
      omega
    · have hle : calculate_subnet_size h ≤
          (counts.map calculate_subnet_size).sum :=
        List.single_le_sum (fun x _ => Nat.zero_le x) _ hmem
      have : (2 : ℕ) ^ ceilLog2 (h + 3) ≤ 2 ^ 32 := by
        have hcs2 : calculate_subnet_size h = 2 ^ ceilLog2 (h + 3) := rfl
        omega
      exact (pow_le_pow_iff_right₀ one_lt_two).mp this
  have hdvd : ∀ s ∈ sizes, s ∣ B := by
    intro s hs
    rcases List.mem_map.mp (hperm.mem_iff.mp hs) with ⟨h, hh, rfl⟩
    exact halign h hh
  have hov2 : B + sizes.sum ≤ 2 ^ 32 := by
    rw [hperm.sum_eq]
    exact hov
  have hsorted : List.Sorted (· ≥ ·) sizes := sortSizesDesc_sorted _
  have hprops := vlsmWalk_net_props sizes B hpows hdvd hov2 hsorted
  have hsizes_mem : ∀ sub ∈ subs, sub.size ∈ sizes := by
    intro sub hsub
    rw [hsubs] at hsub
    have := List.mem_map_of_mem SubnetInfo.size hsub
    rwa [vlsmWalk_map_size] at this
  have hnm : netMaskList (configsOfSubs subs) = subs.map netProj := by
    unfold netMaskList configsOfSubs
    rw [List.map_map]
    have hcomp : ((fun cfg : MainAccessCfg =>
        (netFloor (quadVal cfg.gateway) cfg.subnetMask, cfg.subnetMask)) ∘
          (fun p : ℕ × SubnetInfo =>
            { vlanId := p.1 + 1, gateway := p.2.first_ip,
              subnetMask := p.2.subnet_mask : MainAccessCfg })) =
        netProj ∘ Prod.snd := rfl
    rw [hcomp, ← List.map_map, List.enum_map_snd]
  intro pr hpr g hg sub hsub
  unfold linkSubnets at hpr
  cases hh : highestSubnet (configsOfSubs subs) with
  | none =>
    rw [hh] at hpr
    simp at hpr
  | some v =>
    rw [hh] at hpr
    simp only [List.mem_map] at hpr
    rcases hpr with ⟨p, _, rfl⟩
    obtain ⟨hn, hm⟩ := v
    have hnmne : netMaskList (configsOfSubs subs) ≠ [] := by
      intro hcontra
      unfold highestSubnet at hh
      rw [hcontra] at hh
      cases hh
    rcases highestSubnet_max (configsOfSubs subs) hnmne with ⟨v2, hv2, hv2mem, hv2max⟩
    rw [hh] at hv2
    have hv2eq : v2 = (hn, hm) := (Option.some.inj hv2).symm
    subst hv2eq
    rw [hnm] at hv2mem hv2max
    rcases List.mem_map.mp hv2mem with ⟨subH, hsubH, hprojH⟩
    have hpropsH := hprops subH (by rwa [hsubs] at hsubH)
    have hhn : hn = quadVal subH.rangeQ := by
      have := congrArg Prod.fst hprojH
      simp only [netProj] at this
      rw [← this, hpropsH.1]
    have hhm : hm = subH.subnet_mask := by
      have := congrArg Prod.snd hprojH
      simp only [netProj] at this
      exact this.symm
    have hstepH : 2 ^ (32 - hm) = subH.size := by
      rw [hhm]
      exact hpropsH.2
    have hpropsS := hprops sub (by rwa [hsubs] at hsub)
    have hmaxS := hv2max (netProj sub) (List.mem_map_of_mem netProj hsub)
    simp only [netProj] at hmaxS
    have hlastS : lastHost (netFloor (quadVal sub.first_ip) sub.subnet_mask)
        sub.subnet_mask = quadVal sub.rangeQ + sub.size - 2 := by
      unfold lastHost
      rw [hpropsS.1, hpropsS.2]
    have hlastH : lastHost hn hm = quadVal subH.rangeQ + subH.size - 2 := by
      unfold lastHost
      rw [hhn, hstepH]
    have hg2 : nextLinkSubnet hn hm p.1 = some g := hg
    unfold nextLinkSubnet at hg2
    by_cases hlt : hn + (p.1 + 1) * 2 ^ (32 - hm) < 2 ^ 32
    · rw [if_pos hlt] at hg2
      have hgval : g = hn + (p.1 + 1) * 2 ^ (32 - hm) :=
        (Option.some.inj hg2).symm
      have hsize4 : 4 ≤ sub.size := by
        rcases hpows sub.size (hsizes_mem sub hsub) with ⟨e, he2, _, heq⟩
        calc (4 : ℕ) = 2 ^ 2 := by norm_num
          _ ≤ 2 ^ e := pow_le_pow_right₀ one_le_two he2
          _ = sub.size := heq.symm
      have hsizeH4 : 4 ≤ subH.size := by
        rcases hpows subH.size (hsizes_mem subH hsubH) with ⟨e, he2, _, heq⟩
        calc (4 : ℕ) = 2 ^ 2 := by norm_num
          _ ≤ 2 ^ e := pow_le_pow_right₀ one_le_two he2
          _ = subH.size := heq.symm
      have hstep_ge : subH.size ≤ (p.1 + 1) * 2 ^ (32 - hm) := by
        rw [hstepH] at *
        have : 1 * subH.size ≤ (p.1 + 1) * subH.size :=
          Nat.mul_le_mul_right _ (by omega)
        omega
      rw [hlastS, hlastH] at hmaxS
      rw [hgval, hhn]
      omega
    · rw [if_neg hlt] at hg2
      cases hg2

/-- A minimal topology for exercising configure_top_layers: one
Distribution-layer router connected to one Core-layer multilayer switch. -/
def c9Graph : TopGraph :=
  { nodes := [.router 1, .mls 1]
    layerTag := fun n =>
      if n = .router 1 then some .Distribution
      else if n = .mls 1 then some .Core
      else none
    edges := [(.router 1, .mls 1)] }

/-- C9 counterexample to the unconditional claim: with the unaligned base
10.0.0.1 encoded here as 0.0.0.1 and a single host count of 1, the unique
access subnet occupies integer addresses 1 through 4, yet the first link
subnet generated for the Distribution-Core edge starts at address 4 -- inside
the access block -- because the generator floors the gateway to a network
base before stepping, so an unaligned VLSM range is re-entered. -/
theorem configure_top_layers_links_overlap :
    calculate_vlsm ⟨0, 0, 0, 1⟩ [1] =
      .ok [⟨⟨0, 0, 0, 1⟩, 30, ⟨0, 0, 0, 2⟩, ⟨0, 0, 0, 2⟩, 30, 4⟩] ∧
    linkSubnets c9Graph
      (configsOfSubs [⟨⟨0, 0, 0, 1⟩, 30, ⟨0, 0, 0, 2⟩, ⟨0, 0, 0, 2⟩, 30, 4⟩]) =
      [((DeviceName.router 1, DeviceName.mls 1), some 4)] ∧
    quadVal (⟨0, 0, 0, 1⟩ : Quad) ≤ 4 ∧
    4 < quadVal (⟨0, 0, 0, 1⟩ : Quad) + 4 :=
  ⟨rfl, rfl, by decide, by decide⟩

/-- The subnets calculate_vlsm returns for base 10.0.0.0 and counts [5, 13]:
a /28 of 16 addresses then a /29 of 8 addresses. -/
def c9WitnessSubs : List SubnetInfo :=
  [⟨⟨10, 0, 0, 0⟩, 28, ⟨10, 0, 0, 1⟩, ⟨10, 0, 0, 13⟩, 28, 16⟩,
   ⟨⟨10, 0, 0, 16⟩, 29, ⟨10, 0, 0, 17⟩, ⟨10, 0, 0, 21⟩, 29, 8⟩]

/-- Witness instantiating the amended C9 theorem at base 10.0.0.0 with host
counts [5, 13] on the one-edge Distribution-Core topology. -/
theorem configure_top_layers_links_disjoint_witness :
    (∀ h ∈ [5, 13], calculate_subnet_size h ∣ ip_to_int ⟨10, 0, 0, 0⟩) ∧
    (ip_to_int ⟨10, 0, 0, 0⟩ +
      ([5, 13].map calculate_subnet_size).sum ≤ 2 ^ 32) ∧
    (∀ pr ∈ linkSubnets c9Graph (configsOfSubs c9WitnessSubs), ∀ g,
      pr.2 = some g → ∀ sub ∈ c9WitnessSubs,
        quadVal sub.rangeQ + sub.size ≤ g) :=
  ⟨by decide, by decide,
    configure_top_layers_links_disjoint ⟨10, 0, 0, 0⟩ [5, 13] c9Graph
      c9WitnessSubs (by decide) (by decide) rfl⟩

/-- The exceptions the orchestrator can surface: the ValueError raised by
unpacking a 2-tuple into three targets, the TypeError raised by calling a
2-parameter function with four arguments, the ValueError raised by
create_optimal_vlan_network on an invalid mode, and any error escaping the
VLSM allocator. -/
inductive OrchErr where
  | valueErrorUnpack
  | typeErrorArity
  | invalidMode
  | vlsm (e : VlsmErr)
deriving Repr, DecidableEq

/-- The dynamically-typed components of the tuple configure_devices returns:
in Python both live in one tuple object, so the orchestrator sees a plain
sequence of values. -/
inductive CfgResultVal where
  | configs (cs : List DeviceConfig)
  | names (ns : List DeviceName)
deriving Repr, DecidableEq

/-- configure_devices as the orchestrator observes it: a sequence of exactly
two values, the device configurations and the main switches. -/
def configure_devices_py (vlans : List (List DeviceName)) (q : Quad) :
    Except OrchErr (List CfgResultVal) :=
  match configure_devices vlans q with
  | .ok p => .ok [.configs p.1, .names p.2]
  | .error e => .error (.vlsm e)

/-- Python target-list unpacking with three targets: `a, b, c = t` succeeds
exactly when the iterable has three items and raises ValueError otherwise. -/
def unpack3 (vals : List CfgResultVal) :
    Except OrchErr (CfgResultVal × CfgResultVal × CfgResultVal) :=
  match vals with
  | [a, b, c] => .ok (a, b, c)
  | _ => .error .valueErrorUnpack

/-- The single line `device_configurations, main_access_switches, next_ip =
configure_devices(vlans, self.ip_base)` of create_optimized_topology. -/
def configure_devices_unpack3 (vlans : List (List DeviceName)) (q : Quad) :
    Except OrchErr (CfgResultVal × CfgResultVal × CfgResultVal) := do
  let tup ← configure_devices_py vlans q
  unpack3 tup

/-- Python positional-arity checking: a call with the wrong number of
positional arguments raises TypeError before the body runs. -/
def checkArity {α : Type} (expected given : ℕ) (body : α) :
    Except OrchErr α :=
  if given = expected then .ok body else .error .typeErrorArity

/-- The mode dispatch inside create_optimal_vlan_network: the per-VLAN loop
raises ValueError on its first iteration when the mode is neither 0 nor 1,
and runs no iteration at all when there are no VLANs. -/
def create_optimal_vlan_network_check (vlans : List (List DeviceName))
    (mode : ℤ) : Except OrchErr Unit :=
  if vlans ≠ [] ∧ mode ≠ 0 ∧ mode ≠ 1 then .error .invalidMode else .ok ()

/-- Embeds GraphManager.create_optimized_topology together with the
constructor wiring that feeds it: name the devices, assign layers, build the
VLAN partition (create_optimal_vlan_network validates the mode first), then
run the access configuration.  The source unpacks the 2-tuple returned by
configure_devices into three targets and would afterwards call the
2-parameter configure_top_layers with four arguments; the access graph is
represented by its VLAN partition. -/
def create_optimized_topology (num_routers num_mls num_switches
    num_computers : ℕ) (mode : ℤ) (ip_base : Quad) (vlan_count : ℤ) :
    Except OrchErr
      (List (List DeviceName) × TopGraph × List DeviceConfig ×
        List DeviceConfig) := do
  let layers := assign_devices_to_layers (routerDevices num_routers)
    (mlsDevices num_mls) (switchDevices num_switches)
    (computerDevices num_computers)
  let vlan_devices := layers.Access.map Device.name
  let switches := vlan_devices.filter hasSwitchSub
  let computers := vlan_devices.filter hasComputerSub
  let vlans := bin_packing_vlans switches.length computers.length vlan_count
  let _ ← create_optimal_vlan_network_check vlans mode
  let upk ← configure_devices_unpack3 vlans ip_base
  let device_configurations := match upk.1 with
    | .configs cs => cs
    | _ => []
  let main_access_switches := match upk.2.1 with
    | .names ns => ns
    | _ => []
  let top_graph := build_topology (layers.Distribution.map Device.name)
    (layers.Core.map Device.name) main_access_switches
  let top_layer_configurations ← checkArity 2 4 ([] : List DeviceConfig)
  return (vlans, top_graph, device_configurations, top_layer_configurations)

lemma configure_devices_ok (vlans : List (List DeviceName)) (q : Quad) :
    ∃ p, configure_devices vlans q = .ok p := by
  have hmm : vlans.map (fun vlan => Int.ofNat vlan.length) =
      (vlans.map List.length).map Int.ofNat := by
    rw [List.map_map]
    rfl
  have hcv : calculate_vlsm q (vlans.map (fun vlan => Int.ofNat vlan.length)) =
      .ok (vlsmWalk (ip_to_int q)
        (sortSizesDesc ((vlans.map List.length).map calculate_subnet_size))) := by
    rw [hmm]
    simp only [calculate_vlsm, collectSizes_ok, except_bind_ok]
    rfl
  cases hcd : configure_devices vlans q with
  | ok p => exact ⟨p, rfl⟩
  | error e =>
    exfalso
    simp only [configure_devices, hcv, except_bind_ok] at hcd
    exact Except.noConfusion hcd

lemma configure_devices_unpack3_fails (vlans : List (List DeviceName))
    (q : Quad) :
    configure_devices_unpack3 vlans q = .error .valueErrorUnpack := by
  obtain ⟨p, hp⟩ := configure_devices_ok vlans q
  unfold configure_devices_unpack3 configure_devices_py
  rw [hp]
  rfl

/-- C1: the claim is false of the code for every valid input: the
orchestrator unpacks the 2-tuple returned by configure_devices into three
targets, so create_optimized_topology always raises ValueError and never
returns the four-tuple (and even if it got past the unpack it would call the
2-parameter configure_top_layers with four arguments). -/
theorem create_optimized_topology_always_fails (num_routers num_mls
    num_switches num_computers : ℕ) (mode : ℤ) (ip_base : Quad)
    (vlan_count : ℤ) (hmode : mode = 0 ∨ mode = 1)
    (_hvc : vlan_count = -1 ∨ 0 < vlan_count) :
    create_optimized_topology num_routers num_mls num_switches num_computers
      mode ip_base vlan_count = .error .valueErrorUnpack := by
  have hchk : ∀ vl, create_optimal_vlan_network_check vl mode = .ok () := by
    intro vl
    unfold create_optimal_vlan_network_check
    rcases hmode with rfl | rfl <;> simp
  simp only [create_optimized_topology, hchk, configure_devices_unpack3_fails,
    except_bind_ok, except_bind_error]

/-- Witness instantiating C1 at the example configuration from the source
(2 routers, 2 multilayer switches, 4 switches, 15 computers, scalable mode,
base 192.168.0.0, automatic VLAN count). -/
theorem create_optimized_topology_always_fails_witness :
    ((1 : ℤ) = 0 ∨ (1 : ℤ) = 1) ∧
    ((-1 : ℤ) = -1 ∨ (0 : ℤ) < -1) ∧
    create_optimized_topology 2 2 4 15 1 ⟨192, 168, 0, 0⟩ (-1) =
      .error .valueErrorUnpack :=
  ⟨Or.inr rfl, Or.inl rfl,
    create_optimized_topology_always_fails 2 2 4 15 1 ⟨192, 168, 0, 0⟩ (-1)
      (Or.inr rfl) (Or.inl rfl)⟩

/-- A heap/edge triple.  In the heap it reads (weight, u, v); in the MST
edge list it reads (u, v, weight). -/
abbrev Triple := ℕ × ℕ × ℕ

/-- The weighted undirected graph prims_minimum_spanning_tree receives:
nodes in insertion order (list(graph.nodes())) and one (u, v, weight)
record per undirected edge. -/
structure PyGraph where
  nodes : List ℕ
  edges : List Triple
deriving Repr, DecidableEq

/-- graph.neighbors(u): the other endpoint of every edge incident to u. -/
def nbrs (G : PyGraph) (u : ℕ) : List ℕ :=
  G.edges.filterMap (fun e =>
    if e.1 = u then some e.2.1 else if e.2.1 = u then some e.1 else none)

/-- graph[u][v]\x7b'weight'\x7d: the weight stored on the unique edge joining u
and v (0 when absent; well-formedness makes the lookup unambiguous). -/
def wOf (G : PyGraph) (u v : ℕ) : ℕ :=
  ((G.edges.find? (fun e =>
    decide ((e.1 = u ∧ e.2.1 = v) ∨ (e.1 = v ∧ e.2.1 = u)))).map
      (fun e => e.2.2)).getD 0

/-- Python tuple comparison on heap entries: (w, u, v) < (w', u', v')
lexicographically. -/
def lexLtB (a b : Triple) : Bool :=
  decide (a.1 < b.1 ∨ (a.1 = b.1 ∧
    (a.2.1 < b.2.1 ∨ (a.2.1 = b.2.1 ∧ a.2.2 < b.2.2))))

/-- The least entry of a nonempty heap under Python tuple order. -/
def heapMin (h : Triple) (rest : List Triple) : Triple :=
  rest.foldl (fun m t => if lexLtB t m then t else m) h

/-- heapq.heappop: remove and return the least entry; heap order never
affects which value is returned, only the internal layout. -/
def popMin : List Triple → Option (Triple × List Triple)
  | [] => none
  | h :: rest =>
    let m := heapMin h rest
    some (m, (h :: rest).erase m)

/-- The while-loop of prims_minimum_spanning_tree, fuel-indexed: pop the
least (weight, u, v); skip it when v is already visited, otherwise visit v,
record the edge (u, v, weight), and push (w', v, nb) for every unvisited
neighbor nb of v. -/
def prims_loop (G : PyGraph) :
    ℕ → List Triple → List ℕ → List Triple → List Triple
  | 0, _, _, A => A
  | fuel + 1, H, S, A =>
    match popMin H with
    | none => A
    | some (t, H2) =>
      if t.2.2 ∈ S then prims_loop G fuel H2 S A
      else
        prims_loop G fuel
          (H2 ++ (nbrs G t.2.2).filterMap (fun nb =>
            if nb ∈ t.2.2 :: S then none
            else some (wOf G t.2.2 nb, t.2.2, nb)))
          (t.2.2 :: S) (A ++ [(t.2.1, t.2.2, t.1)])

/-- Embeds prims_minimum_spanning_tree from access_layer.py: empty node
list gives the empty graph; otherwise start from nodes[0], seed the heap
with the start node's incident edges, and run the loop.  The fuel
4*|edges|+1 strictly exceeds the total number of heap operations any run
can perform. -/
def prims (G : PyGraph) : List Triple :=
  match G.nodes with
  | [] => []
  | start :: _ =>
    prims_loop G (4 * G.edges.length + 1)
      ((nbrs G start).map (fun v => (wOf G start v, start, v)))
      [start] []

/-- The node set of the returned networkx graph: nodes enter the MST object
only through add_edge, so they are exactly the recorded edges' endpoints. -/
def mstNodes (A : List Triple) : List ℕ :=
  A.flatMap (fun e => [e.1, e.2.1])

/-- Orient an edge record with its smaller endpoint first, so that the two
directions of one undirected edge coincide. -/
def canon (e : Triple) : Triple :=
  if e.1 ≤ e.2.1 then e else (e.2.1, e.1, e.2.2)

/-- Canonical orientation applied to a whole edge list. -/
def canonL (A : List Triple) : List Triple := A.map canon

/-- The statement (u, v) is an edge of G of weight w, in either stored
orientation. -/
def isEdgeOf (G : PyGraph) (u v w : ℕ) : Prop :=
  (u, v, w) ∈ G.edges ∨ (v, u, w) ∈ G.edges

/-- One undirected hop along an edge list. -/
def adjB (E : List Triple) (x y : ℕ) : Bool :=
  E.any (fun e => decide ((e.1 = x ∧ e.2.1 = y) ∨ (e.1 = y ∧ e.2.1 = x)))

/-- Reachability along an edge list. -/
def Reach (E : List Triple) : ℕ → ℕ → Prop :=
  Relation.ReflTransGen (fun x y => adjB E x y = true)

/-- The graph is connected: any two nodes are joined by a path. -/
def connectedG (G : PyGraph) : Prop :=
  ∀ x ∈ G.nodes, ∀ y ∈ G.nodes, Reach G.edges x y

/-- Well-formedness of the networkx graph handed to Prim: distinct nodes,
edges between distinct existing nodes, at most one edge per node pair. -/
structure WFG (G : PyGraph) : Prop where
  nodesNodup : G.nodes.Nodup
  endsL : ∀ e ∈ G.edges, e.1 ∈ G.nodes
  endsR : ∀ e ∈ G.edges, e.2.1 ∈ G.nodes
  noLoop : ∀ e ∈ G.edges, e.1 ≠ e.2.1
  uniquePair : ∀ e ∈ G.edges, ∀ f ∈ G.edges,
    (e.1 = f.1 ∧ e.2.1 = f.2.1 ∨ e.1 = f.2.1 ∧ e.2.1 = f.1) → e = f

/-- Total weight of an edge list. -/
def weightL (A : List Triple) : ℕ := (A.map (fun e => e.2.2)).sum

/-- T is a spanning tree of G: distinct canonical G-edges, one fewer than
the nodes, joining every pair of nodes. -/
def SpanTree (G : PyGraph) (T : List Triple) : Prop :=
  T.Nodup ∧ (∀ c ∈ T, c ∈ canonL G.edges) ∧
    T.length + 1 = G.nodes.length ∧
    ∀ x ∈ G.nodes, ∀ y ∈ G.nodes, Reach T x y

/-- T is a minimum spanning tree of G. -/
def MinST (G : PyGraph) (T : List Triple) : Prop :=
  SpanTree G T ∧ ∀ U, SpanTree G U → weightL T ≤ weightL U

/-- Loop measure: pending heap entries plus the degrees of the unvisited
nodes (an upper bound on all future pops). -/
def phi (G : PyGraph) (H : List Triple) (S : List ℕ) : ℕ :=
  H.length +
    ((G.nodes.filter (fun v => decide (v ∉ S))).map
      (fun v => (nbrs G v).length)).sum

/-- The 4-node complete instance from the specification, A B C D as
0 1 2 3 with weights AB=1 AC=4 AD=3 BC=2 BD=5 CD=6. -/
def fourG : PyGraph :=
  { nodes := [0, 1, 2, 3]
    edges := [(0, 1, 1), (0, 2, 4), (0, 3, 3), (1, 2, 2), (1, 3, 5),
      (2, 3, 6)] }

theorem prims_fourG_smoke : prims fourG = [(0, 1, 1), (1, 2, 2), (0, 3, 3)] :=
  rfl

lemma lexLtB_trans {a b c : Triple} (hab : lexLtB a b = true)
    (hbc : lexLtB b c = true) : lexLtB a c = true := by
  simp only [lexLtB, decide_eq_true_eq] at *
  omega

lemma lexLtB_irrefl (a : Triple) : lexLtB a a = false := by
  simp only [lexLtB, decide_eq_false_iff_not]
  omega

lemma lexLtB_connex (a b : Triple) :
    lexLtB a b = true ∨ lexLtB b a = true ∨ a = b := by
  obtain ⟨a1, a2, a3⟩ := a
  obtain ⟨b1, b2, b3⟩ := b
  simp only [lexLtB, decide_eq_true_eq, Prod.mk.injEq]
  omega

lemma heapMin_cases : ∀ (rest : List Triple) (h : Triple),
    heapMin h rest = h ∨ heapMin h rest ∈ rest := by
  intro rest
  induction rest with
  | nil => intro h; exact Or.inl rfl
  | cons r rs ih =>
    intro h
    by_cases hrh : lexLtB r h = true
    · have hstep : heapMin h (r :: rs) = heapMin r rs := by
        show heapMin (if lexLtB r h then r else h) rs = heapMin r rs
        rw [if_pos hrh]
      rw [hstep]
      rcases ih r with heq | hmem
      · rw [heq]; exact Or.inr (List.mem_cons_self r rs)
      · exact Or.inr (List.mem_cons_of_mem r hmem)
    · have hstep : heapMin h (r :: rs) = heapMin h rs := by
        show heapMin (if lexLtB r h then r else h) rs = heapMin h rs
        rw [if_neg hrh]
      rw [hstep]
      rcases ih h with heq | hmem
      · exact Or.inl heq
      · exact Or.inr (List.mem_cons_of_mem r hmem)

lemma heapMin_mem (h : Triple) (rest : List Triple) :
    heapMin h rest ∈ h :: rest := by
  rcases heapMin_cases rest h with heq | hmem
  · rw [heq]; exact List.mem_cons_self _ _
  · exact List.mem_cons_of_mem _ hmem

lemma heapMin_min : ∀ (rest : List Triple) (h : Triple),
    ∀ s ∈ h :: rest, lexLtB s (heapMin h rest) = false := by
  intro rest
  induction rest with
  | nil =>
    intro h s hs
    rcases List.mem_cons.mp hs with hseq | hs2
    · rw [hseq]; exact lexLtB_irrefl h
    · cases hs2
  | cons r rs ih =>
    intro h s hs
    by_cases hrh : lexLtB r h = true
    · have hstep : heapMin h (r :: rs) = heapMin r rs := by
        show heapMin (if lexLtB r h then r else h) rs = heapMin r rs
        rw [if_pos hrh]
      rw [hstep]
      rcases List.mem_cons.mp hs with hseq | hs2
      · by_contra hcon
        rw [Bool.not_eq_false] at hcon
        have hr : lexLtB r (heapMin r rs) = false :=
          ih r r (List.mem_cons_self r rs)
        have hrh2 : lexLtB r s = true := by rw [hseq]; exact hrh
        have hbad : lexLtB r (heapMin r rs) = true := lexLtB_trans hrh2 hcon
        rw [hr] at hbad
        cases hbad
      · rcases List.mem_cons.mp hs2 with hseq | h3
        · rw [hseq]; exact ih r r (List.mem_cons_self r rs)
        · exact ih r s (List.mem_cons_of_mem r h3)
    · have hstep : heapMin h (r :: rs) = heapMin h rs := by
        show heapMin (if lexLtB r h then r else h) rs = heapMin h rs
        rw [if_neg hrh]
      rw [hstep]
      rcases List.mem_cons.mp hs with hseq | hs2
      · rw [hseq]; exact ih h h (List.mem_cons_self h rs)
      · rcases List.mem_cons.mp hs2 with hseq | h3
        · by_contra hcon
          rw [Bool.not_eq_false] at hcon
          have hh : lexLtB h (heapMin h rs) = false :=
            ih h h (List.mem_cons_self h rs)
          have hsr : lexLtB s h = false := by
            rw [hseq]
            exact Bool.eq_false_iff.mpr hrh
          rcases lexLtB_connex (heapMin h rs) h with hlt | hlt | heq2
          · have hbad : lexLtB s h = true := lexLtB_trans hcon hlt
            rw [hsr] at hbad
            cases hbad
          · rw [hlt] at hh
            cases hh
          · rw [heq2] at hcon
            rw [hsr] at hcon
            cases hcon
        · exact ih h s (List.mem_cons_of_mem h h3)

lemma popMin_none {H : List Triple} : popMin H = none ↔ H = [] := by
  cases H with
  | nil => simp [popMin]
  | cons h rest => simp [popMin]

lemma popMin_some {H : List Triple} {t : Triple} {H2 : List Triple}
    (hp : popMin H = some (t, H2)) :
    t ∈ H ∧ H2 = H.erase t ∧ ∀ s ∈ H, lexLtB s t = false := by
  cases H with
  | nil => cases hp
  | cons h rest =>
    have ht : t = heapMin h rest ∧ H2 = (h :: rest).erase (heapMin h rest) := by
      simp only [popMin] at hp
      injection hp with hp2
      injection hp2 with hA hB
      exact ⟨hA.symm, hB.symm⟩
    obtain ⟨rfl, rfl⟩ := ht
    exact ⟨heapMin_mem h rest, rfl, heapMin_min rest h⟩

lemma canon_weight (e : Triple) : (canon e).2.2 = e.2.2 := by
  unfold canon
  by_cases h : e.1 ≤ e.2.1
  · rw [if_pos h]
  · rw [if_neg h]

lemma canon_ends (e : Triple) :
    ((canon e).1 = e.1 ∧ (canon e).2.1 = e.2.1) ∨
      ((canon e).1 = e.2.1 ∧ (canon e).2.1 = e.1) := by
  unfold canon
  by_cases h : e.1 ≤ e.2.1
  · rw [if_pos h]; exact Or.inl ⟨rfl, rfl⟩
  · rw [if_neg h]; exact Or.inr ⟨rfl, rfl⟩

lemma canon_swap (u v w : ℕ) (h : u ≠ v) :
    canon (u, v, w) = canon (v, u, w) := by
  unfold canon
  dsimp only
  rcases Nat.lt_or_ge u v with hlt | hge
  · rw [if_pos (Nat.le_of_lt hlt), if_neg (by omega)]
  · have hvu : v < u := by omega
    rw [if_neg (by omega), if_pos (Nat.le_of_lt hvu)]

lemma adjB_iff {E : List Triple} {x y : ℕ} :
    adjB E x y = true ↔
      ∃ e ∈ E, (e.1 = x ∧ e.2.1 = y) ∨ (e.1 = y ∧ e.2.1 = x) := by
  simp [adjB, List.any_eq_true, decide_eq_true_eq]

lemma adjB_symm {E : List Triple} {x y : ℕ} (h : adjB E x y = true) :
    adjB E y x = true := by
  rw [adjB_iff] at h ⊢
  rcases h with ⟨e, he, hc⟩
  exact ⟨e, he, hc.symm⟩

lemma adjB_mono {E E' : List Triple} (hs : ∀ e ∈ E, e ∈ E') {x y : ℕ}
    (h : adjB E x y = true) : adjB E' x y = true := by
  rw [adjB_iff] at h ⊢
  rcases h with ⟨e, he, hc⟩
  exact ⟨e, hs e he, hc⟩

lemma adjB_canonL {A : List Triple} {x y : ℕ} :
    adjB (canonL A) x y = true ↔ adjB A x y = true := by
  rw [adjB_iff, adjB_iff]
  constructor
  · rintro ⟨c, hc, hcase⟩
    rcases List.mem_map.mp hc with ⟨e, he, rfl⟩
    rcases canon_ends e with ⟨h1, h2⟩ | ⟨h1, h2⟩ <;>
      rcases hcase with ⟨ha, hb⟩ | ⟨ha, hb⟩ <;>
        exact ⟨e, he, by rw [h1] at ha; rw [h2] at hb; tauto⟩
  · rintro ⟨e, he, hcase⟩
    refine ⟨canon e, List.mem_map_of_mem canon he, ?_⟩
    rcases canon_ends e with ⟨h1, h2⟩ | ⟨h1, h2⟩ <;>
      rcases hcase with ⟨ha, hb⟩ | ⟨ha, hb⟩ <;>
        rw [h1, h2, ha, hb] <;> tauto

lemma Reach_refl {E : List Triple} (x : ℕ) : Reach E x x :=
  Relation.ReflTransGen.refl

lemma Reach_single {E : List Triple} {x y : ℕ} (h : adjB E x y = true) :
    Reach E x y :=
  Relation.ReflTransGen.single h

lemma Reach_trans {E : List Triple} {x y z : ℕ} (h1 : Reach E x y)
    (h2 : Reach E y z) : Reach E x z :=
  Relation.ReflTransGen.trans h1 h2

lemma Reach_mono {E E' : List Triple} (hs : ∀ e ∈ E, e ∈ E') {x y : ℕ}
    (h : Reach E x y) : Reach E' x y := by
  induction h with
  | refl => exact Reach_refl x
  | tail _ hstep ih => exact Reach_trans ih (Reach_single (adjB_mono hs hstep))

lemma Reach_symm {E : List Triple} {x y : ℕ} (h : Reach E x y) :
    Reach E y x := by
  induction h with
  | refl => exact Reach_refl x
  | tail _ hstep ih =>
    exact Reach_trans (Reach_single (adjB_symm hstep)) ih

lemma Reach_canonL {A : List Triple} {x y : ℕ} :
    Reach (canonL A) x y ↔ Reach A x y := by
  constructor
  · intro h
    induction h with
    | refl => exact Reach_refl x
    | tail _ hstep ih =>
      exact Reach_trans ih (Reach_single (adjB_canonL.mp hstep))
  · intro h
    induction h with
    | refl => exact Reach_refl x
    | tail _ hstep ih =>
      exact Reach_trans ih (Reach_single (adjB_canonL.mpr hstep))

/-- Consecutive adjacency along a vertex list. -/
def chainOk (E : List Triple) : List ℕ → Prop
  | [] => True
  | [_] => True
  | x :: y :: rest => adjB E x y = true ∧ chainOk E (y :: rest)

lemma chainOk_tail {E : List Triple} {a : ℕ} {M : List ℕ}
    (h : chainOk E (a :: M)) : chainOk E M := by
  cases M with
  | nil => trivial
  | cons m M' => exact h.2

lemma chainOk_suffix {E : List Triple} :
    ∀ (l1 l2 : List ℕ), chainOk E (l1 ++ l2) → chainOk E l2 := by
  intro l1
  induction l1 with
  | nil => intro l2 h; exact h
  | cons a l1' ih => intro l2 h; exact ih l2 (chainOk_tail h)

lemma chainOk_mono {E E' : List Triple} (hs : ∀ e ∈ E, e ∈ E') :
    ∀ l, chainOk E l → chainOk E' l := by
  intro l
  induction l with
  | nil => intro h; trivial
  | cons x rest ih =>
    intro h
    cases rest with
    | nil => trivial
    | cons y rest' => exact ⟨adjB_mono hs h.1, ih h.2⟩

lemma chainOk_reach {E : List Triple} :
    ∀ (l : List ℕ) (x y : ℕ), chainOk E l → l.head? = some x →
      l.getLast? = some y → Reach E x y := by
  intro l
  induction l with
  | nil => intro x y _ hh; cases hh
  | cons a rest ih =>
    intro x y hch hh hl
    injection hh with hh
    subst hh
    cases rest with
    | nil =>
      simp only [List.getLast?_singleton] at hl
      injection hl with hl
      rw [hl]
      exact Reach_refl _
    | cons b rest' =>
      rw [List.getLast?_cons_cons] at hl
      exact Reach_trans (Reach_single hch.1) (ih b y hch.2 rfl hl)

lemma chainOk_take_to {E : List Triple} :
    ∀ (l1 : List ℕ) (y : ℕ) (l2 : List ℕ),
      chainOk E (l1 ++ y :: l2) → chainOk E (l1 ++ [y]) := by
  intro l1
  induction l1 with
  | nil => intro y l2 _; trivial
  | cons a l1' ih =>
    intro y l2 h
    cases l1' with
    | nil => exact ⟨h.1, trivial⟩
    | cons b l1'' => exact ⟨h.1, ih y l2 h.2⟩

lemma chainOk_snoc {E : List Triple} :
    ∀ (l : List ℕ) (b y : ℕ), chainOk E l → l.getLast? = some b →
      adjB E b y = true → chainOk E (l ++ [y]) := by
  intro l
  induction l with
  | nil => intro b y _ hl _; cases hl
  | cons a rest ih =>
    intro b y hch hl hadj
    cases rest with
    | nil =>
      simp only [List.getLast?_singleton] at hl
      injection hl with hl
      subst hl
      exact ⟨hadj, trivial⟩
    | cons c rest' =>
      rw [List.getLast?_cons_cons] at hl
      exact ⟨hch.1, ih b y hch.2 hl hadj⟩

/-- A reachable pair is joined by a duplicate-free chain. -/
lemma reach_nodup_chain {E : List Triple} {x y : ℕ} (h : Reach E x y) :
    ∃ l, chainOk E (x :: l) ∧ (x :: l).getLast? = some y ∧
      (x :: l).Nodup := by
  induction h with
  | refl => exact ⟨[], trivial, rfl, List.nodup_singleton x⟩
  | tail _ hstep ih =>
    rename_i b c _
    rcases ih with ⟨l, hch, hlast, hnd⟩
    by_cases hc : c ∈ x :: l
    · rcases List.append_of_mem hc with ⟨s, t, hst⟩
      refine ⟨?count, ?_, ?_, ?_⟩
      case count =>
        exact (s ++ [c]).tail
      · have hseq : x :: (s ++ [c]).tail = s ++ [c] := by
          cases s with
          | nil =>
            have : x = c := by
              have := congrArg List.head? hst
              simp at this
              exact this
            rw [this]
            rfl
          | cons s0 s' =>
            have : s0 = x := by
              have := congrArg List.head? hst
              simp at this
              exact this.symm
            rw [this]
            rfl
        rw [hseq]
        rw [hst] at hch
        exact chainOk_take_to s c t hch
      · have hseq : x :: (s ++ [c]).tail = s ++ [c] := by
          cases s with
          | nil =>
            have : x = c := by
              have := congrArg List.head? hst
              simp at this
              exact this
            rw [this]
            rfl
          | cons s0 s' =>
            have : s0 = x := by
              have := congrArg List.head? hst
              simp at this
              exact this.symm
            rw [this]
            rfl
        rw [hseq]
        exact List.getLast?_concat s
      · have hseq : x :: (s ++ [c]).tail = s ++ [c] := by
          cases s with
          | nil =>
            have : x = c := by
              have := congrArg List.head? hst
              simp at this
              exact this
            rw [this]
            rfl
          | cons s0 s' =>
            have : s0 = x := by
              have := congrArg List.head? hst
              simp at this
              exact this.symm
            rw [this]
            rfl
        rw [hseq]
        have hsub : (s ++ [c]).Sublist (s ++ c :: t) :=
          List.Sublist.append_left (by
            exact List.cons_sublist_cons.mpr (List.nil_sublist t)) s
        rw [hst] at hnd
        exact hsub.nodup hnd
    · refine ⟨l ++ [c], ?_, ?_, ?_⟩
      · have : (x :: l) ++ [c] = x :: (l ++ [c]) := rfl
        rw [← this]
        exact chainOk_snoc (x :: l) b c hch hlast hstep
      · have : x :: (l ++ [c]) = (x :: l) ++ [c] := rfl
        rw [this]
        exact List.getLast?_concat _
      · have : x :: (l ++ [c]) = (x :: l) ++ [c] := rfl
        rw [this]
        exact List.Nodup.append hnd (List.nodup_singleton c)
          (by
            intro a ha hb
            rcases List.mem_singleton.mp hb with rfl
            exact hc ha)

/-- Walking from inside S to outside S crosses the boundary somewhere. -/
lemma first_cross_decomp {S : List ℕ} :
    ∀ (l : List ℕ) (x y : ℕ), l.head? = some x → l.getLast? = some y →
      x ∈ S → y ∉ S →
      ∃ l1 a b l2, l = l1 ++ a :: b :: l2 ∧ a ∈ S ∧ b ∉ S := by
  intro l
  induction l with
  | nil => intro x y hh _ _ _; cases hh
  | cons z rest ih =>
    intro x y hh hl hx hy
    injection hh with hh
    subst hh
    cases rest with
    | nil =>
      simp only [List.getLast?_singleton] at hl
      injection hl with hl
      subst hl
      exact absurd hx hy
    | cons w rest' =>
      by_cases hw : w ∈ S
      · rw [List.getLast?_cons_cons] at hl
        rcases ih w y rfl hl hw hy with ⟨l1, a, b, l2, heq, ha, hb⟩
        exact ⟨z :: l1, a, b, l2, by rw [heq]; rfl, ha, hb⟩
      · exact ⟨[], z, w, rest', rfl, hx, hw⟩

lemma adjB_erase_of_pair_ne {E : List Triple} {f : Triple} {x y : ℕ}
    (hadj : adjB E x y = true)
    (hne : ¬((f.1 = x ∧ f.2.1 = y) ∨ (f.1 = y ∧ f.2.1 = x))) :
    adjB (E.erase f) x y = true := by
  rw [adjB_iff] at hadj ⊢
  rcases hadj with ⟨e, he, hc⟩
  refine ⟨e, ?_, hc⟩
  have hef : e ≠ f := by
    intro heq
    subst heq
    exact hne hc
  exact (List.mem_erase_of_ne hef).mpr he

/-- A chain avoiding one endpoint of f survives the removal of f. -/
lemma chainOk_erase_avoid {E : List Triple} {f : Triple} :
    ∀ (l : List ℕ), chainOk E l → (f.1 ∉ l ∨ f.2.1 ∉ l) →
      chainOk (E.erase f) l := by
  intro l
  induction l with
  | nil => intro _ _; trivial
  | cons x rest ih =>
    intro hch havoid
    cases rest with
    | nil => trivial
    | cons y rest' =>
      refine ⟨?_, ?_⟩
      · apply adjB_erase_of_pair_ne hch.1
        rintro (⟨h1, h2⟩ | ⟨h1, h2⟩) <;>
          rcases havoid with hav | hav <;>
            simp_all
      · apply ih hch.2
        rcases havoid with hav | hav
        · exact Or.inl (fun hmem => hav (List.mem_cons_of_mem x hmem))
        · exact Or.inr (fun hmem => hav (List.mem_cons_of_mem x hmem))

lemma isEdgeOf_symm {G : PyGraph} {u v w : ℕ} (h : isEdgeOf G u v w) :
    isEdgeOf G v u w := h.symm

lemma adjB_of_mem {E : List Triple} {e : Triple} (he : e ∈ E) :
    adjB E e.1 e.2.1 = true :=
  adjB_iff.mpr ⟨e, he, Or.inl ⟨rfl, rfl⟩⟩

lemma canonL_mem_isEdgeOf {G : PyGraph} {c : Triple}
    (hc : c ∈ canonL G.edges) : isEdgeOf G c.1 c.2.1 c.2.2 := by
  rcases List.mem_map.mp hc with ⟨e, he, hce⟩
  have hee : (e.1, e.2.1, e.2.2) = e := rfl
  unfold canon at hce
  by_cases hle : e.1 ≤ e.2.1
  · rw [if_pos hle] at hce
    subst hce
    exact Or.inl (by rw [hee]; exact he)
  · rw [if_neg hle] at hce
    subst hce
    exact Or.inr (by simpa using he)

lemma canon_mem_canonL {G : PyGraph} {u v w : ℕ} (h : isEdgeOf G u v w)
    (hne : u ≠ v) : canon (u, v, w) ∈ canonL G.edges := by
  rcases h with he | he
  · have : canon (u, v, w) = canon ((u, v, w) : Triple) := rfl
    exact List.mem_map_of_mem canon he
  · rw [canon_swap u v w hne]
    exact List.mem_map_of_mem canon he

lemma head?_append_cons {α : Type} (l1 : List α) (a : α) (l2 : List α) :
    (l1 ++ a :: l2).head? = (l1 ++ [a]).head? := by
  cases l1 <;> simp

lemma getLast?_append_cons {α : Type} :
    ∀ (l1 : List α) (a : α) (l2 : List α),
      (l1 ++ a :: l2).getLast? = (a :: l2).getLast? := by
  intro l1
  induction l1 with
  | nil => intro a l2; rfl
  | cons x l1' ih =>
    intro a l2
    have hne : l1' ++ a :: l2 ≠ [] := by
      intro hcon
      exact absurd (List.append_eq_nil.mp hcon).2 (by simp)
    cases hM : l1' ++ a :: l2 with
    | nil => exact absurd hM hne
    | cons m M' =>
      have h1 : ((x :: l1') ++ a :: l2) = x :: m :: M' := by
        rw [List.cons_append, hM]
      rw [h1, List.getLast?_cons_cons, ← hM, ih a l2]

lemma reach_lift {T T' : List Triple}
    (hstep : ∀ p q, adjB T p q = true → Reach T' p q) :
    ∀ x y, Reach T x y → Reach T' x y := by
  intro x y h
  induction h with
  | refl => exact Reach_refl x
  | tail _ hs ih => exact Reach_trans ih (hstep _ _ hs)

lemma weightL_append (X Y : List Triple) :
    weightL (X ++ Y) = weightL X + weightL Y := by
  simp [weightL]

lemma weightL_cons (c : Triple) (X : List Triple) :
    weightL (c :: X) = c.2.2 + weightL X := by
  simp [weightL]

lemma weightL_perm {X Y : List Triple} (h : X.Perm Y) :
    weightL X = weightL Y := by
  unfold weightL
  exact (h.map (fun e => e.2.2)).sum_eq

lemma perm_cons_erase_triple :
    ∀ (T : List Triple) (f : Triple), f ∈ T → T.Perm (f :: T.erase f) := by
  intro T
  induction T with
  | nil => intro f h; cases h
  | cons t rest ih =>
    intro f h
    by_cases hft : t = f
    · subst hft
      rw [List.erase_cons_head]
    · rw [List.erase_cons_tail]
      · have hfr : f ∈ rest := by
          rcases List.mem_cons.mp h with h1 | h1
          · exact absurd h1.symm hft
          · exact h1
        exact ((ih f hfr).cons t).trans (List.Perm.swap f t _)
      · simp [hft]

/-- Exchange step for Prim's invariant: given any minimum spanning tree T
containing the tree-so-far (edges internal to the visited set S), and a
minimum-weight edge (u, v, w) crossing the boundary of S, some minimum
spanning tree contains the crossing edge together with all S-internal edges
of T. -/
lemma mst_exchange (G : PyGraph) (S : List ℕ) (T : List Triple)
    (hT : MinST G T) (u v w : ℕ) (huS : u ∈ S) (hvS : v ∉ S)
    (hu : u ∈ G.nodes) (hv : v ∈ G.nodes) (hedge : isEdgeOf G u v w)
    (hmin : ∀ x y w', x ∈ S → y ∉ S → isEdgeOf G x y w' → w ≤ w') :
    ∃ T', MinST G T' ∧ canon (u, v, w) ∈ T' ∧
      ∀ c ∈ T, c.1 ∈ S → c.2.1 ∈ S → c ∈ T' := by
  by_cases hin : canon (u, v, w) ∈ T
  · exact ⟨T, hT, hin, fun c hc _ _ => hc⟩
  obtain ⟨⟨hTnd, hTsub, hTlen, hTconn⟩, hTmin⟩ := hT
  have huv : u ≠ v := fun h => hvS (h ▸ huS)
  have hreach : Reach T u v := hTconn u hu v hv
  obtain ⟨l, hch, hlast, hnd⟩ := reach_nodup_chain hreach
  obtain ⟨l1, a, b, l2, heq, haS, hbS⟩ :=
    first_cross_decomp (u :: l) u v rfl hlast huS hvS
  rw [heq] at hch hlast hnd
  have hab : adjB T a b = true :=
    (chainOk_suffix l1 (a :: b :: l2) hch).1
  obtain ⟨f, hfT, hfc⟩ := adjB_iff.mp hab
  have hfG : isEdgeOf G f.1 f.2.1 f.2.2 := canonL_mem_isEdgeOf (hTsub f hfT)
  have hwle : w ≤ f.2.2 := by
    rcases hfc with ⟨h1, h2⟩ | ⟨h1, h2⟩
    · exact hmin a b f.2.2 haS hbS (by rw [← h1, ← h2]; exact hfG)
    · exact hmin a b f.2.2 haS hbS
        (by rw [← h2, ← h1]; exact isEdgeOf_symm hfG)
  have hnd2 : ((l1 ++ [a]) ++ b :: l2).Nodup := by
    rw [List.append_assoc]
    exact hnd
  obtain ⟨hndX, hndY, hdisj⟩ := List.nodup_append.mp hnd2
  have hbX : b ∉ l1 ++ [a] := fun hbmem => hdisj hbmem (List.mem_cons_self b l2)
  have haY : a ∉ b :: l2 := fun hamem => hdisj (by simp) hamem
  have hch1 : chainOk T (l1 ++ [a]) := chainOk_take_to l1 a (b :: l2) hch
  have hch2 : chainOk T (b :: l2) :=
    chainOk_suffix (l1 ++ [a]) (b :: l2) (by rw [List.append_assoc]; exact hch)
  have hfava : f.1 ∉ (l1 ++ [a]) ∨ f.2.1 ∉ (l1 ++ [a]) := by
    rcases hfc with ⟨h1, h2⟩ | ⟨h1, h2⟩
    · exact Or.inr (by rw [h2]; exact hbX)
    · exact Or.inl (by rw [h1]; exact hbX)
  have hfavb : f.1 ∉ (b :: l2) ∨ f.2.1 ∉ (b :: l2) := by
    rcases hfc with ⟨h1, h2⟩ | ⟨h1, h2⟩
    · exact Or.inl (by rw [h1]; exact haY)
    · exact Or.inr (by rw [h2]; exact haY)
  have hch1e : chainOk (T.erase f) (l1 ++ [a]) :=
    chainOk_erase_avoid _ hch1 hfava
  have hch2e : chainOk (T.erase f) (b :: l2) :=
    chainOk_erase_avoid _ hch2 hfavb
  have hhead1 : (l1 ++ [a]).head? = some u := by
    rw [← head?_append_cons l1 a (b :: l2), ← heq]
    rfl
  have hreach_ua : Reach (T.erase f) u a :=
    chainOk_reach (l1 ++ [a]) u a hch1e hhead1 (List.getLast?_concat l1)
  have hlast2 : (b :: l2).getLast? = some v := by
    rw [← getLast?_append_cons (l1 ++ [a]) b l2, List.append_assoc]
    exact hlast
  have hreach_bv : Reach (T.erase f) b v :=
    chainOk_reach (b :: l2) b v hch2e rfl hlast2
  have herase_sub : ∀ e ∈ T.erase f, e ∈ T :=
    fun e he => List.mem_of_mem_erase he
  have hsub_Tx : ∀ e ∈ T.erase f, e ∈ T.erase f ++ [canon (u, v, w)] :=
    fun e he => List.mem_append_left _ he
  have hcnewTx : canon (u, v, w) ∈ T.erase f ++ [canon (u, v, w)] :=
    List.mem_append_right _ (by simp)
  have hadj_uv : adjB (T.erase f ++ [canon (u, v, w)]) u v = true := by
    rcases canon_ends (u, v, w) with ⟨h1, h2⟩ | ⟨h1, h2⟩
    · exact adjB_iff.mpr ⟨canon (u, v, w), hcnewTx, Or.inl ⟨h1, h2⟩⟩
    · exact adjB_iff.mpr ⟨canon (u, v, w), hcnewTx, Or.inr ⟨h1, h2⟩⟩
  have hre_ab : Reach (T.erase f ++ [canon (u, v, w)]) a b := by
    have h1 : Reach (T.erase f ++ [canon (u, v, w)]) a u :=
      Reach_symm (Reach_mono hsub_Tx hreach_ua)
    have h2 : Reach (T.erase f ++ [canon (u, v, w)]) u v :=
      Reach_single hadj_uv
    have h3 : Reach (T.erase f ++ [canon (u, v, w)]) v b :=
      Reach_symm (Reach_mono hsub_Tx hreach_bv)
    exact Reach_trans (Reach_trans h1 h2) h3
  have hstep_lift : ∀ p q, adjB T p q = true →
      Reach (T.erase f ++ [canon (u, v, w)]) p q := by
    intro p q hpq
    obtain ⟨e, heT, hec⟩ := adjB_iff.mp hpq
    by_cases hef : e = f
    · subst hef
      rcases hec with ⟨h1, h2⟩ | ⟨h1, h2⟩ <;>
        rcases hfc with ⟨h3, h4⟩ | ⟨h3, h4⟩
      · rw [h1.symm.trans h3, h2.symm.trans h4]
        exact hre_ab
      · rw [h1.symm.trans h3, h2.symm.trans h4]
        exact Reach_symm hre_ab
      · rw [h1.symm.trans h3, h2.symm.trans h4]
        exact Reach_symm hre_ab
      · rw [h1.symm.trans h3, h2.symm.trans h4]
        exact hre_ab
    · have hee : e ∈ T.erase f := (List.mem_erase_of_ne hef).mpr heT
      exact Reach_single (adjB_iff.mpr ⟨e, hsub_Tx e hee, hec⟩)
  have hnodupTx : (T.erase f ++ [canon (u, v, w)]).Nodup := by
    refine List.Nodup.append (hTnd.erase f) (List.nodup_singleton _) ?_
    intro x hx hy
    rcases List.mem_singleton.mp hy with rfl
    exact hin (herase_sub _ hx)
  have hsubTx : ∀ c ∈ T.erase f ++ [canon (u, v, w)], c ∈ canonL G.edges := by
    intro c hc
    rcases List.mem_append.mp hc with hc1 | hc2
    · exact hTsub c (herase_sub c hc1)
    · rcases List.mem_singleton.mp hc2 with rfl
      exact canon_mem_canonL hedge huv
  have hlenTx : (T.erase f ++ [canon (u, v, w)]).length + 1 =
      G.nodes.length := by
    have h1 : (T.erase f).length = T.length - 1 := List.length_erase_of_mem hfT
    have h2 : T ≠ [] := List.ne_nil_of_mem hfT
    have h3 : 0 < T.length := List.length_pos.mpr h2
    rw [List.length_append, h1]
    simp only [List.length_singleton]
    omega
  have hconnTx : ∀ x ∈ G.nodes, ∀ y ∈ G.nodes,
      Reach (T.erase f ++ [canon (u, v, w)]) x y := by
    intro x hx y hy
    exact reach_lift hstep_lift x y (hTconn x hx y hy)
  have hwTx : weightL (T.erase f ++ [canon (u, v, w)]) ≤ weightL T := by
    have hperm : T.Perm (f :: T.erase f) := perm_cons_erase_triple T f hfT
    have h1 : weightL T = f.2.2 + weightL (T.erase f) := by
      rw [weightL_perm hperm, weightL_cons]
    have h2 : weightL (T.erase f ++ [canon (u, v, w)]) =
        weightL (T.erase f) + w := by
      rw [weightL_append, weightL_cons]
      have h3 : (canon (u, v, w)).2.2 = w := canon_weight (u, v, w)
      rw [h3]
      simp [weightL]
    omega
  refine ⟨T.erase f ++ [canon (u, v, w)],
    ⟨⟨hnodupTx, hsubTx, hlenTx, hconnTx⟩,
      fun U hU => le_trans hwTx (hTmin U hU)⟩, hcnewTx, ?_⟩
  intro c hcT hc1 hc2
  have hcf : c ≠ f := by
    intro hcon
    subst hcon
    rcases hfc with ⟨h1, h2⟩ | ⟨h1, h2⟩
    · exact hbS (h2 ▸ hc2)
    · exact hbS (h1 ▸ hc1)
  exact hsub_Tx c ((List.mem_erase_of_ne hcf).mpr hcT)

lemma wOf_eq {G : PyGraph} (hwf : WFG G) {u v w : ℕ}
    (h : isEdgeOf G u v w) : wOf G u v = w := by
  have hex : ∃ e ∈ G.edges, (fun e : Triple =>
      decide ((e.1 = u ∧ e.2.1 = v) ∨ (e.1 = v ∧ e.2.1 = u))) e = true := by
    rcases h with he | he
    · exact ⟨(u, v, w), he, by simp⟩
    · exact ⟨(v, u, w), he, by simp⟩
  obtain ⟨e0, hfind⟩ := Option.isSome_iff_exists.mp (List.find?_isSome.mpr hex)
  have hp := List.find?_some hfind
  have hmem := List.mem_of_find?_eq_some hfind
  rw [decide_eq_true_eq] at hp
  unfold wOf
  rw [hfind]
  simp only [Option.map_some', Option.getD_some]
  rcases h with he | he
  · have heq : e0 = (u, v, w) := hwf.uniquePair e0 hmem (u, v, w) he hp
    rw [heq]
  · have heq : e0 = (v, u, w) := hwf.uniquePair e0 hmem (v, u, w) he hp.symm
    rw [heq]

lemma mem_nbrs {G : PyGraph} (hwf : WFG G) {u v : ℕ} :
    v ∈ nbrs G u ↔ ∃ w, isEdgeOf G u v w := by
  constructor
  · intro h
    rcases List.mem_filterMap.mp h with ⟨e, he, hfe⟩
    by_cases h1 : e.1 = u
    · rw [if_pos h1] at hfe
      injection hfe with hfe
      refine ⟨e.2.2, Or.inl ?_⟩
      have : (u, v, e.2.2) = e := by
        rw [← h1, ← hfe]
      rw [this]
      exact he
    · rw [if_neg h1] at hfe
      by_cases h2 : e.2.1 = u
      · rw [if_pos h2] at hfe
        injection hfe with hfe
        refine ⟨e.2.2, Or.inr ?_⟩
        have : (v, u, e.2.2) = e := by
          rw [← h2, ← hfe]
        rw [this]
        exact he
      · rw [if_neg h2] at hfe
        cases hfe
  · rintro ⟨w, he | he⟩
    · refine List.mem_filterMap.mpr ⟨(u, v, w), he, ?_⟩
      rw [if_pos rfl]
    · refine List.mem_filterMap.mpr ⟨(v, u, w), he, ?_⟩
      have hvu : v ≠ u := hwf.noLoop (v, u, w) he
      rw [if_neg hvu, if_pos rfl]

lemma isEdgeOf_wOf {G : PyGraph} (hwf : WFG G) {u v : ℕ}
    (h : v ∈ nbrs G u) : isEdgeOf G u v (wOf G u v) := by
  obtain ⟨w, hw⟩ := (mem_nbrs hwf).mp h
  rw [wOf_eq hwf hw]
  exact hw

/-- Incidence list over a plain edge list. -/
def nbrsL (es : List Triple) (u : ℕ) : List ℕ :=
  es.filterMap (fun e =>
    if e.1 = u then some e.2.1 else if e.2.1 = u then some e.1 else none)

lemma nbrs_eq (G : PyGraph) (u : ℕ) : nbrs G u = nbrsL G.edges u := rfl

lemma nbrsL_cons (e : Triple) (es : List Triple) (u : ℕ) :
    nbrsL (e :: es) u =
      (if e.1 = u then [e.2.1] else if e.2.1 = u then [e.1] else []) ++
        nbrsL es u := by
  unfold nbrsL
  rw [List.filterMap_cons]
  by_cases h1 : e.1 = u
  · rw [if_pos h1, if_pos h1]
    rfl
  · rw [if_neg h1, if_neg h1]
    by_cases h2 : e.2.1 = u
    · rw [if_pos h2, if_pos h2]
      rfl
    · rw [if_neg h2, if_neg h2]
      rfl

lemma sum_map_add {α : Type} (l : List α) (f g : α → ℕ) :
    (l.map (fun v => f v + g v)).sum = (l.map f).sum + (l.map g).sum := by
  induction l with
  | nil => rfl
  | cons x xs ih => simp [ih]; omega

lemma sum_indicator_le {l : List ℕ} (hnd : l.Nodup) (a : ℕ) :
    (l.map (fun v => if v = a then 1 else 0)).sum ≤ 1 := by
  induction l with
  | nil => simp
  | cons x xs ih =>
    have hx := List.nodup_cons.mp hnd
    by_cases hxa : x = a
    · subst hxa
      have hz : (xs.map (fun v => if v = x then 1 else 0)).sum = 0 := by
        apply List.sum_eq_zero
        intro n hn
        rcases List.mem_map.mp hn with ⟨v, hv, hfv⟩
        rw [← hfv, if_neg (fun hcon => hx.1 (by rw [← hcon]; exact hv))]
      simp [hz]
    · have := ih hx.2
      simp [hxa]
      omega

lemma degSum_le (nodes : List ℕ) (hnd : nodes.Nodup) :
    ∀ es : List Triple,
      (nodes.map (fun v => (nbrsL es v).length)).sum ≤ 2 * es.length := by
  intro es
  induction es with
  | nil =>
    have : ∀ v ∈ nodes, (nbrsL [] v).length = 0 := by
      intro v _; rfl
    rw [List.map_congr_left this]
    simp
  | cons e es ih =>
    have hsplit : (nodes.map (fun v => (nbrsL (e :: es) v).length)).sum =
        (nodes.map (fun v =>
          (if e.1 = v then [e.2.1] else if e.2.1 = v then [e.1] else []).length +
            (nbrsL es v).length)).sum := by
      apply congrArg
      apply List.map_congr_left
      intro v _
      rw [nbrsL_cons, List.length_append]
    rw [hsplit, sum_map_add]
    have hcontrib : (nodes.map (fun v =>
        (if e.1 = v then [e.2.1] else if e.2.1 = v then [e.1] else []).length)).sum ≤ 2 := by
      have hpt : ∀ v ∈ nodes,
          (if e.1 = v then [e.2.1] else if e.2.1 = v then [e.1] else []).length ≤
            (if v = e.1 then 1 else 0) + (if v = e.2.1 then 1 else 0) := by
        intro v _
        by_cases h1 : e.1 = v
        · rw [if_pos h1, if_pos h1.symm]
          by_cases h2 : v = e.2.1
          · rw [if_pos h2]; simp
          · rw [if_neg h2]; simp
        · rw [if_neg h1]
          by_cases h2 : e.2.1 = v
          · rw [if_pos h2, if_neg (fun hc => h1 hc.symm), if_pos h2.symm]
            simp
          · rw [if_neg h2]
            simp
      calc (nodes.map (fun v =>
          (if e.1 = v then [e.2.1] else if e.2.1 = v then [e.1] else []).length)).sum
          ≤ (nodes.map (fun v =>
            (if v = e.1 then 1 else 0) + (if v = e.2.1 then 1 else 0))).sum := by
            apply List.sum_le_sum
            intro v hv
            exact hpt v hv
        _ = (nodes.map (fun v => if v = e.1 then 1 else 0)).sum +
            (nodes.map (fun v => if v = e.2.1 then 1 else 0)).sum :=
            sum_map_add nodes _ _
        _ ≤ 2 := by
            have h1 := sum_indicator_le hnd e.1
            have h2 := sum_indicator_le hnd e.2.1
            omega
    have : 2 * (e :: es).length = 2 + 2 * es.length := by
      simp [List.length_cons]
      omega
    omega

lemma nodup_perm_cons_filter {M : List ℕ} (hnd : M.Nodup) {v : ℕ}
    (hv : v ∈ M) :
    M.Perm (v :: M.filter (fun x => decide (x ≠ v))) := by
  induction M with
  | nil => cases hv
  | cons m M' ih =>
    have hm := List.nodup_cons.mp hnd
    by_cases hmv : m = v
    · subst hmv
      have hfix : M'.filter (fun x => decide (x ≠ m)) = M' := by
        apply List.filter_eq_self.mpr
        intro x hx
        simp only [decide_eq_true_eq]
        intro hcon
        exact hm.1 (hcon ▸ hx)
      rw [List.filter_cons_of_neg (by simp)]
      rw [hfix]
    · have hvM' : v ∈ M' := by
        rcases List.mem_cons.mp hv with h1 | h1
        · exact absurd h1.symm hmv
        · exact h1
      have hstep := (ih hm.2 hvM').cons m
      rw [List.filter_cons_of_pos (by simp [hmv])]
      exact hstep.trans (List.Perm.swap v m _)

lemma filter_notin_cons (nodes : List ℕ) (v : ℕ) (S : List ℕ) :
    nodes.filter (fun x => decide (x ∉ v :: S)) =
      (nodes.filter (fun x => decide (x ∉ S))).filter
        (fun x => decide (x ≠ v)) := by
  rw [List.filter_filter]
  apply List.filter_congr
  intro x _
  by_cases hxv : x = v
  · subst hxv
    simp [List.mem_cons]
  · by_cases hxS : x ∈ S <;> simp [List.mem_cons, hxv, hxS]

lemma sum_deg_filter_cons (G : PyGraph) (hwf : WFG G) (v : ℕ) (S : List ℕ)
    (hv : v ∈ G.nodes) (hvS : v ∉ S) :
    ((G.nodes.filter (fun x => decide (x ∉ v :: S))).map
        (fun x => (nbrs G x).length)).sum + (nbrs G v).length =
      ((G.nodes.filter (fun x => decide (x ∉ S))).map
        (fun x => (nbrs G x).length)).sum := by
  have hMnd : (G.nodes.filter (fun x => decide (x ∉ S))).Nodup :=
    hwf.nodesNodup.filter _
  have hvM : v ∈ G.nodes.filter (fun x => decide (x ∉ S)) :=
    List.mem_filter.mpr ⟨hv, by simp [hvS]⟩
  have hperm := nodup_perm_cons_filter hMnd hvM
  have hsum := (hperm.map (fun x => (nbrs G x).length)).sum_eq
  rw [filter_notin_cons]
  rw [hsum]
  simp only [List.map_cons, List.sum_cons]
  omega

lemma phi_discard_lt {G : PyGraph} {H : List Triple} {t : Triple}
    (ht : t ∈ H) (S : List ℕ) : phi G (H.erase t) S < phi G H S := by
  unfold phi
  have h1 : (H.erase t).length = H.length - 1 := List.length_erase_of_mem ht
  have h2 : 0 < H.length := List.length_pos.mpr (List.ne_nil_of_mem ht)
  omega

lemma phi_visit_lt {G : PyGraph} (hwf : WFG G) {H : List Triple} {t : Triple}
    (ht : t ∈ H) {S : List ℕ} (hvn : t.2.2 ∈ G.nodes) (hvS : t.2.2 ∉ S)
    {pushes : List Triple} (hlen : pushes.length ≤ (nbrs G t.2.2).length) :
    phi G (H.erase t ++ pushes) (t.2.2 :: S) < phi G H S := by
  unfold phi
  have h1 : (H.erase t).length = H.length - 1 := List.length_erase_of_mem ht
  have h2 : 0 < H.length := List.length_pos.mpr (List.ne_nil_of_mem ht)
  have h3 := sum_deg_filter_cons G hwf t.2.2 S hvn hvS
  rw [List.length_append, h1]
  omega

lemma lexLtB_false_le {a b : Triple} (h : lexLtB a b = false) :
    b.1 ≤ a.1 := by
  simp only [lexLtB, decide_eq_false_iff_not] at h
  omega

/-- Master invariant run of the Prim loop: from any state satisfying the
invariants the loop ends with a visited set closed under adjacency, the
recorded edges forming a tree on the visited set, and (relative to any
minimum spanning tree containing the canonical tree-so-far) the final
canonical edge set still inside some minimum spanning tree. -/
lemma prims_loop_master (G : PyGraph) (hwf : WFG G) (start : ℕ) :
    ∀ (fuel : ℕ) (H : List Triple) (S : List ℕ) (A : List Triple),
      phi G H S < fuel →
      S.Nodup → (∀ x ∈ S, x ∈ G.nodes) → start ∈ S →
      (∀ e ∈ A, e.1 ∈ S ∧ e.2.1 ∈ S) →
      (∀ e ∈ A, isEdgeOf G e.1 e.2.1 e.2.2) →
      A.length + 1 = S.length →
      (∀ x ∈ S, Reach A start x) →
      (canonL A).Nodup →
      (∀ t ∈ H, t.2.1 ∈ S ∧ isEdgeOf G t.2.1 t.2.2 t.1) →
      (∀ x y w, x ∈ S → y ∉ S → isEdgeOf G x y w → (w, x, y) ∈ H) →
      ∃ Sf : List ℕ,
        Sf.Nodup ∧ (∀ x ∈ Sf, x ∈ G.nodes) ∧ start ∈ Sf ∧
        (∀ x ∈ S, x ∈ Sf) ∧
        (∀ e ∈ prims_loop G fuel H S A, e.1 ∈ Sf ∧ e.2.1 ∈ Sf) ∧
        (∀ e ∈ prims_loop G fuel H S A, isEdgeOf G e.1 e.2.1 e.2.2) ∧
        ((prims_loop G fuel H S A).length + 1 = Sf.length) ∧
        (∀ x ∈ Sf, Reach (prims_loop G fuel H S A) start x) ∧
        (canonL (prims_loop G fuel H S A)).Nodup ∧
        (∀ x ∈ Sf, ∀ y w, isEdgeOf G x y w → y ∈ Sf) ∧
        (∀ T, MinST G T → (∀ c ∈ canonL A, c ∈ T) →
          ∃ T2, MinST G T2 ∧
            ∀ c ∈ canonL (prims_loop G fuel H S A), c ∈ T2) := by
  intro fuel
  induction fuel with
  | zero =>
    intro H S A hphi
    exact absurd hphi (Nat.not_lt_zero _)
  | succ fuel ih =>
    intro H S A hphi hS1 hS2 hstart hA4 hA5 hA6 hA7 hA8 hB hC
    cases hpop : popMin H with
    | none =>
      have hHnil := popMin_none.mp hpop
      subst hHnil
      have hred : prims_loop G (fuel + 1) [] S A = A := rfl
      rw [hred]
      refine ⟨S, hS1, hS2, hstart, fun x hx => hx, hA4, hA5, hA6, hA7, hA8,
        ?_, ?_⟩
      · intro x hx y w hxy
        by_contra hyS
        cases hC x y w hx hyS hxy
      · intro T hT hsub
        exact ⟨T, hT, hsub⟩
    | some tH =>
      obtain ⟨t, H2⟩ := tH
      obtain ⟨htH, hH2, hmin⟩ := popMin_some hpop
      subst hH2
      have hred : prims_loop G (fuel + 1) H S A =
          if t.2.2 ∈ S then prims_loop G fuel (H.erase t) S A
          else prims_loop G fuel
            (H.erase t ++ (nbrs G t.2.2).filterMap (fun nb =>
              if nb ∈ t.2.2 :: S then none
              else some (wOf G t.2.2 nb, t.2.2, nb)))
            (t.2.2 :: S) (A ++ [(t.2.1, t.2.2, t.1)]) := by
        show (match popMin H with
          | none => A
          | some (t, H2) =>
            if t.2.2 ∈ S then prims_loop G fuel H2 S A
            else prims_loop G fuel
              (H2 ++ (nbrs G t.2.2).filterMap (fun nb =>
                if nb ∈ t.2.2 :: S then none
                else some (wOf G t.2.2 nb, t.2.2, nb)))
              (t.2.2 :: S) (A ++ [(t.2.1, t.2.2, t.1)])) = _
        rw [hpop]
      by_cases hvS : t.2.2 ∈ S
      · rw [hred, if_pos hvS]
        apply ih (H.erase t) S A
        · have := @phi_discard_lt G H t htH S
          omega
        · exact hS1
        · exact hS2
        · exact hstart
        · exact hA4
        · exact hA5
        · exact hA6
        · exact hA7
        · exact hA8
        · intro s hs
          exact hB s (List.mem_of_mem_erase hs)
        · intro x y w hx hy hxy
          have hmem := hC x y w hx hy hxy
          have hne : (w, x, y) ≠ t := by
            intro hcon
            have : y = t.2.2 := by rw [← hcon]
            exact hy (this ▸ hvS)
          exact (List.mem_erase_of_ne hne).mpr hmem
      · rw [hred, if_neg hvS]
        obtain ⟨htu, htedge⟩ := hB t htH
        have hvn : t.2.2 ∈ G.nodes := by
          rcases htedge with he | he
          · exact hwf.endsR _ he
          · exact hwf.endsL _ he
        have hpushlen : ((nbrs G t.2.2).filterMap (fun nb =>
            if nb ∈ t.2.2 :: S then none
            else some (wOf G t.2.2 nb, t.2.2, nb))).length ≤
              (nbrs G t.2.2).length :=
          List.length_filterMap_le _ _
        obtain ⟨Sf, hf1, hf2, hf3, hf4, hf5, hf6, hf7, hf8, hf9, hf10,
            hf11⟩ :=
          ih (H.erase t ++ (nbrs G t.2.2).filterMap (fun nb =>
              if nb ∈ t.2.2 :: S then none
              else some (wOf G t.2.2 nb, t.2.2, nb)))
            (t.2.2 :: S) (A ++ [(t.2.1, t.2.2, t.1)])
            (by
              have := phi_visit_lt hwf htH hvn hvS hpushlen
              omega)
            (List.nodup_cons.mpr ⟨hvS, hS1⟩)
            (by
              intro x hx
              rcases List.mem_cons.mp hx with rfl | hx2
              · exact hvn
              · exact hS2 x hx2)
            (List.mem_cons_of_mem _ hstart)
            (by
              intro e he
              rcases List.mem_append.mp he with he1 | he2
              · obtain ⟨h1, h2⟩ := hA4 e he1
                exact ⟨List.mem_cons_of_mem _ h1, List.mem_cons_of_mem _ h2⟩
              · rcases List.mem_singleton.mp he2 with rfl
                exact ⟨List.mem_cons_of_mem _ htu, List.mem_cons_self _ _⟩)
            (by
              intro e he
              rcases List.mem_append.mp he with he1 | he2
              · exact hA5 e he1
              · rcases List.mem_singleton.mp he2 with rfl
                exact htedge)
            (by
              rw [List.length_append, List.length_singleton,
                List.length_cons]
              omega)
            (by
              intro x hx
              have hmono : ∀ e ∈ A, e ∈ A ++ [(t.2.1, t.2.2, t.1)] :=
                fun e he => List.mem_append_left _ he
              rcases List.mem_cons.mp hx with hxe | hx2
              · rw [hxe]
                have hstepadj :
                    adjB (A ++ [(t.2.1, t.2.2, t.1)]) t.2.1 t.2.2 = true :=
                  adjB_iff.mpr ⟨(t.2.1, t.2.2, t.1),
                    List.mem_append_right _ (by simp), Or.inl ⟨rfl, rfl⟩⟩
                exact Reach_trans (Reach_mono hmono (hA7 t.2.1 htu))
                  (Reach_single hstepadj)
              · exact Reach_mono hmono (hA7 x hx2)
            )
            (by
              have hexp : canonL (A ++ [(t.2.1, t.2.2, t.1)]) =
                  canonL A ++ [canon (t.2.1, t.2.2, t.1)] := by
                unfold canonL
                rw [List.map_append]
                rfl
              rw [hexp]
              refine List.Nodup.append hA8 (List.nodup_singleton _) ?_
              intro c hc hc2
              rcases List.mem_singleton.mp hc2 with rfl
              rcases List.mem_map.mp hc with ⟨e, heA, hce⟩
              obtain ⟨he1, he2⟩ := hA4 e heA
              rcases canon_ends e with ⟨g1, g2⟩ | ⟨g1, g2⟩ <;>
                rcases canon_ends (t.2.1, t.2.2, t.1) with ⟨g3, g4⟩ |
                  ⟨g3, g4⟩
              · have : t.2.2 ∈ S := by
                  have hq : (canon e).2.1 = t.2.2 := by rw [hce]; exact g4
                  rw [g2] at hq
                  exact hq ▸ he2
                exact hvS this
              · have : t.2.2 ∈ S := by
                  have hq : (canon e).1 = t.2.2 := by rw [hce]; exact g3
                  rw [g1] at hq
                  exact hq ▸ he1
                exact hvS this
              · have : t.2.2 ∈ S := by
                  have hq : (canon e).2.1 = t.2.2 := by rw [hce]; exact g4
                  rw [g2] at hq
                  exact hq ▸ he1
                exact hvS this
              · have : t.2.2 ∈ S := by
                  have hq : (canon e).1 = t.2.2 := by rw [hce]; exact g3
                  rw [g1] at hq
                  exact hq ▸ he2
                exact hvS this
            )
            (by
              intro s hs
              rcases List.mem_append.mp hs with hs1 | hs2
              · obtain ⟨h1, h2⟩ := hB s (List.mem_of_mem_erase hs1)
                exact ⟨List.mem_cons_of_mem _ h1, h2⟩
              · rcases List.mem_filterMap.mp hs2 with ⟨nb, hnb, hfe⟩
                by_cases hnbS : nb ∈ t.2.2 :: S
                · rw [if_pos hnbS] at hfe
                  cases hfe
                · rw [if_neg hnbS] at hfe
                  injection hfe with hfe
                  subst hfe
                  exact ⟨List.mem_cons_self _ _, isEdgeOf_wOf hwf hnb⟩)
            (by
              intro x y w hx hy hxy
              rcases List.mem_cons.mp hx with hxe | hx2
              · subst hxe
                have hynb : y ∈ nbrs G t.2.2 :=
                  (mem_nbrs hwf).mpr ⟨w, hxy⟩
                refine List.mem_append_right _ ?_
                refine List.mem_filterMap.mpr ⟨y, hynb, ?_⟩
                rw [if_neg hy, wOf_eq hwf hxy]
              · have hyS : y ∉ S := fun hcon =>
                  hy (List.mem_cons_of_mem _ hcon)
                have hmem := hC x y w hx2 hyS hxy
                have hne : (w, x, y) ≠ t := by
                  intro hcon
                  have : y = t.2.2 := by rw [← hcon]
                  exact hy (this ▸ List.mem_cons_self _ _)
                exact List.mem_append_left _
                  ((List.mem_erase_of_ne hne).mpr hmem))
        refine ⟨Sf, hf1, hf2, hf3, ?_, hf5, hf6, hf7, hf8, hf9, hf10, ?_⟩
        · intro x hx
          exact hf4 x (List.mem_cons_of_mem _ hx)
        · intro T hT hsubA
          have hmin' : ∀ x y w', x ∈ S → y ∉ S → isEdgeOf G x y w' →
              t.1 ≤ w' := by
            intro x y w' hx hy hxy
            exact lexLtB_false_le (hmin (w', x, y) (hC x y w' hx hy hxy))
          obtain ⟨T', hT', hnewT', hkeep⟩ :=
            mst_exchange G S T hT t.2.1 t.2.2 t.1 htu hvS (hS2 _ htu) hvn
              htedge hmin'
          have hsubA' : ∀ c ∈ canonL (A ++ [(t.2.1, t.2.2, t.1)]),
              c ∈ T' := by
            have hexp : canonL (A ++ [(t.2.1, t.2.2, t.1)]) =
                canonL A ++ [canon (t.2.1, t.2.2, t.1)] := by
              unfold canonL
              rw [List.map_append]
              rfl
            rw [hexp]
            intro c hc
            rcases List.mem_append.mp hc with hc1 | hc2
            · rcases List.mem_map.mp hc1 with ⟨e, heA, hce⟩
              obtain ⟨he1, he2⟩ := hA4 e heA
              have hcin : c ∈ T := hsubA c hc1
              have hc1S : c.1 ∈ S := by
                rcases canon_ends e with ⟨g1, g2⟩ | ⟨g1, g2⟩
                · rw [← hce, g1]; exact he1
                · rw [← hce, g1]; exact he2
              have hc2S : c.2.1 ∈ S := by
                rcases canon_ends e with ⟨g1, g2⟩ | ⟨g1, g2⟩
                · rw [← hce, g2]; exact he2
                · rw [← hce, g2]; exact he1
              exact hkeep c hcin hc1S hc2S
            · rcases List.mem_singleton.mp hc2 with rfl
              exact hnewT'
          exact hf11 T' hT' hsubA'

lemma sum_le_sum_of_sublist {l1 l2 : List ℕ} (h : l1.Sublist l2) :
    l1.sum ≤ l2.sum := by
  induction h with
  | slnil => exact le_rfl
  | cons a _ ih => simp; omega
  | cons₂ a _ ih => simp; omega

lemma isEdgeOf_ne {G : PyGraph} (hwf : WFG G) {u v w : ℕ}
    (h : isEdgeOf G u v w) : u ≠ v := by
  rcases h with he | he
  · exact hwf.noLoop _ he
  · exact (hwf.noLoop _ he).symm

lemma adjB_edges_isEdgeOf {G : PyGraph} {x y : ℕ}
    (h : adjB G.edges x y = true) : ∃ w, isEdgeOf G x y w := by
  rcases adjB_iff.mp h with ⟨e, he, hc⟩
  rcases hc with ⟨h1, h2⟩ | ⟨h1, h2⟩
  · exact ⟨e.2.2, Or.inl (by rw [← h1, ← h2]; exact he)⟩
  · exact ⟨e.2.2, Or.inr (by rw [← h1, ← h2]; exact he)⟩

lemma reach_ne_incident {E : List Triple} {a b : ℕ} (h : Reach E a b)
    (hne : a ≠ b) : ∃ e ∈ E, e.1 = b ∨ e.2.1 = b := by
  induction h with
  | refl => exact absurd rfl hne
  | tail _ hstep _ =>
    rcases adjB_iff.mp hstep with ⟨e, he, hc⟩
    rcases hc with ⟨h1, h2⟩ | ⟨h1, h2⟩
    · exact ⟨e, he, Or.inr h2⟩
    · exact ⟨e, he, Or.inl h1⟩

lemma canonL_length (A : List Triple) : (canonL A).length = A.length :=
  List.length_map A canon

/-- Full correctness of the embedded Prim run on a well-formed connected
graph with at least two nodes: the returned edges form a minimum spanning
tree and the returned graph's node set is exactly the input node set. -/
lemma prims_correct (G : PyGraph) (hwf : WFG G) (hconn : connectedG G)
    (h2 : 2 ≤ G.nodes.length) :
    MinST G (canonL (prims G)) ∧
      (∀ x, x ∈ mstNodes (prims G) ↔ x ∈ G.nodes) := by
  classical
  cases hnodes : G.nodes with
  | nil =>
    rw [hnodes] at h2
    simp at h2
  | cons start rest =>
  rw [← hnodes]
  have hstartn : start ∈ G.nodes := by rw [hnodes]; exact List.mem_cons_self _ _
  have hprims : prims G =
      prims_loop G (4 * G.edges.length + 1)
        ((nbrs G start).map (fun v => (wOf G start v, start, v)))
        [start] [] := by
    unfold prims
    rw [hnodes]
  -- initial measure bound
  have hdegsum := degSum_le G.nodes hwf.nodesNodup G.edges
  have hdeg_start : (nbrs G start).length ≤ 2 * G.edges.length := by
    have hmem : (nbrsL G.edges start).length ∈
        G.nodes.map (fun v => (nbrsL G.edges v).length) :=
      List.mem_map_of_mem _ hstartn
    have := List.single_le_sum (fun (x : ℕ) _ => Nat.zero_le x) _ hmem
    rw [nbrs_eq]
    omega
  have hflt : ((G.nodes.filter (fun v => decide (v ∉ [start]))).map
      (fun v => (nbrs G v).length)).sum ≤ 2 * G.edges.length := by
    have hsl : ((G.nodes.filter (fun v => decide (v ∉ [start]))).map
        (fun v => (nbrs G v).length)).Sublist
          (G.nodes.map (fun v => (nbrs G v).length)) :=
      (List.filter_sublist _).map _
    have h1 := sum_le_sum_of_sublist hsl
    have h2' : (G.nodes.map (fun v => (nbrs G v).length)).sum ≤
        2 * G.edges.length := by
      have : G.nodes.map (fun v => (nbrs G v).length) =
          G.nodes.map (fun v => (nbrsL G.edges v).length) := rfl
      rw [this]
      exact hdegsum
    omega
  have hphi0 : phi G
      ((nbrs G start).map (fun v => (wOf G start v, start, v))) [start] <
        4 * G.edges.length + 1 := by
    unfold phi
    rw [List.length_map]
    omega
  obtain ⟨Sf, hf1, hf2, hf3, _hf4, hf5, hf6, hf7, hf8, hf9, hf10, hf11⟩ :=
    prims_loop_master G hwf start (4 * G.edges.length + 1)
      ((nbrs G start).map (fun v => (wOf G start v, start, v)))
      [start] [] hphi0 (List.nodup_singleton _)
      (by intro x hx; rcases List.mem_singleton.mp hx with rfl; exact hstartn)
      (List.mem_singleton.mpr rfl)
      (by intro e he; cases he)
      (by intro e he; cases he)
      rfl
      (by
        intro x hx
        rcases List.mem_singleton.mp hx with rfl
        exact Reach_refl _)
      List.nodup_nil
      (by
        intro s hs
        rcases List.mem_map.mp hs with ⟨v, hv, rfl⟩
        exact ⟨List.mem_singleton.mpr rfl, isEdgeOf_wOf hwf hv⟩)
      (by
        intro x y w hx hy hxy
        rcases List.mem_singleton.mp hx with rfl
        have hynb : y ∈ nbrs G x := (mem_nbrs hwf).mpr ⟨w, hxy⟩
        have : (wOf G x y, x, y) ∈
            (nbrs G x).map (fun v => (wOf G x v, x, v)) :=
          List.mem_map_of_mem _ hynb
        rw [wOf_eq hwf hxy] at this
        exact this)
  rw [← hprims] at hf5 hf6 hf7 hf8 hf9 hf11
  -- the visited set covers every node
  have hcover : ∀ y ∈ G.nodes, y ∈ Sf := by
    intro y hy
    have hre : Reach G.edges start y := hconn start hstartn y hy
    clear hy
    induction hre with
    | refl => exact hf3
    | tail _ hstep ihc =>
      rename_i c y' _
      obtain ⟨w, hw⟩ := adjB_edges_isEdgeOf hstep
      exact hf10 c ihc y' w hw
  have hSfperm : Sf.length = G.nodes.length := by
    have hle1 : Sf.length ≤ G.nodes.length :=
      (List.subperm_of_subset hf1 (fun x hx => hf2 x hx)).length_le
    have hle2 : G.nodes.length ≤ Sf.length :=
      (List.subperm_of_subset hwf.nodesNodup
        (fun x hx => hcover x hx)).length_le
    omega
  -- the result is a spanning tree
  have hspan : SpanTree G (canonL (prims G)) := by
    refine ⟨hf9, ?_, ?_, ?_⟩
    · intro c hc
      rcases List.mem_map.mp hc with ⟨e, heA, hce⟩
      have hedge := hf6 e heA
      rw [← hce]
      exact canon_mem_canonL hedge (isEdgeOf_ne hwf hedge)
    · rw [canonL_length, hf7, hSfperm]
    · intro x hx y hy
      have hx' := hcover x hx
      have hy' := hcover y hy
      have h1 : Reach (prims G) x y :=
        Reach_trans (Reach_symm (hf8 x hx')) (hf8 y hy')
      exact Reach_canonL.mpr h1
  -- a minimum spanning tree exists; run the exchange chain against it
  have hPex : ∃ n, ∃ T, SpanTree G T ∧ weightL T = n :=
    ⟨weightL (canonL (prims G)), canonL (prims G), hspan, rfl⟩
  obtain ⟨T0, hT0span, hT0w⟩ := Nat.find_spec hPex
  have hT0min : MinST G T0 := by
    refine ⟨hT0span, ?_⟩
    intro U hU
    rw [hT0w]
    exact Nat.find_min' hPex ⟨U, hU, rfl⟩
  obtain ⟨T2, hT2min, hsub2⟩ := hf11 T0 hT0min (by intro c hc; cases hc)
  have hlen2 : T2.length ≤ (canonL (prims G)).length := by
    have ha : (canonL (prims G)).length + 1 = G.nodes.length := by
      rw [canonL_length, hf7, hSfperm]
    have hb : T2.length + 1 = G.nodes.length := hT2min.1.2.2.1
    omega
  have hperm : (canonL (prims G)).Perm T2 :=
    (List.subperm_of_subset hf9 (fun c hc => hsub2 c hc)).perm_of_length_le
      hlen2
  have hwmin : MinST G (canonL (prims G)) := by
    refine ⟨hspan, ?_⟩
    intro U hU
    rw [weightL_perm hperm]
    exact hT2min.2 U hU
  refine ⟨hwmin, ?_⟩
  intro x
  constructor
  · intro hx
    rcases List.mem_flatMap.mp hx with ⟨e, heA, hxe⟩
    obtain ⟨he1, he2⟩ := hf5 e heA
    rcases List.mem_cons.mp hxe with hxe1 | hxe2
    · rw [hxe1]; exact hf2 _ he1
    · rcases List.mem_singleton.mp hxe2 with rfl
      exact hf2 _ he2
  · intro hx
    have hxSf := hcover x hx
    have hincident : ∃ e ∈ prims G, e.1 = x ∨ e.2.1 = x := by
      by_cases hxs : x = start
      · have hrest : rest ≠ [] := by
          intro hcon
          rw [hnodes, hcon] at h2
          simp at h2
        obtain ⟨y, rest', hre⟩ := List.exists_cons_of_ne_nil hrest
        have hyn : y ∈ G.nodes := by
          rw [hnodes, hre]
          exact List.mem_cons_of_mem _ (List.mem_cons_self _ _)
        have hynx : y ≠ x := by
          rw [hxs]
          intro hcon
          have hnd := hwf.nodesNodup
          rw [hnodes, List.nodup_cons] at hnd
          exact hnd.1 (by rw [← hcon, hre]; exact List.mem_cons_self _ _)
        have hrey : Reach (prims G) y x := by
          rw [hxs]
          exact Reach_symm (hf8 y (hcover y hyn))
        exact reach_ne_incident hrey hynx
      · have hre : Reach (prims G) start x := hf8 x hxSf
        exact reach_ne_incident hre (fun hc => hxs hc.symm)
    obtain ⟨e, heA, hinc⟩ := hincident
    refine List.mem_flatMap.mpr ⟨e, heA, ?_⟩
    rcases hinc with h1 | h1
    · rw [h1]
      exact List.mem_cons_self _ _
    · rw [h1]
      exact List.mem_cons_of_mem _ (List.mem_singleton.mpr rfl)

/-- C5 (amended): on every well-formed connected weighted graph with at
least two nodes, prims_minimum_spanning_tree returns a minimum spanning
tree covering exactly the input nodes; on the empty graph it returns the
empty graph; and on the 4-node complete instance it returns the edges
A-B, B-C, A-D of total weight 6.  (The all-nodes coverage fails for
one-node graphs, handled separately as the counterexample.) -/
theorem prims_minimum_spanning_tree_correct :
    (∀ G : PyGraph, WFG G → connectedG G → 2 ≤ G.nodes.length →
      MinST G (canonL (prims G)) ∧
        (∀ x, x ∈ mstNodes (prims G) ↔ x ∈ G.nodes)) ∧
    prims ⟨[], []⟩ = [] ∧
    prims fourG = [(0, 1, 1), (1, 2, 2), (0, 3, 3)] ∧
    weightL (prims fourG) = 6 :=
  ⟨fun G hwf hconn h2 => prims_correct G hwf hconn h2, rfl, rfl, rfl⟩

/-- C5 counterexample to the literal claim: the one-node graph is connected,
but the returned networkx graph has no nodes at all (nodes enter the MST
object only via add_edge), so it is not a spanning tree over all the nodes
of the input. -/
theorem prims_singleton_omits_node :
    prims ⟨[0], []⟩ = [] ∧ mstNodes (prims ⟨[0], []⟩) = [] ∧
      (⟨[0], []⟩ : PyGraph).nodes = [0] ∧ connectedG ⟨[0], []⟩ := by
  refine ⟨rfl, rfl, rfl, ?_⟩
  intro x hx y hy
  have hx' : x = 0 := by simpa using hx
  have hy' : y = 0 := by simpa using hy
  rw [hx', hy']
  exact Reach_refl 0

/-- Witness instantiating the amended C5 theorem on the 4-node complete
instance from the specification. -/
theorem prims_minimum_spanning_tree_correct_witness :
    WFG fourG ∧ connectedG fourG ∧ 2 ≤ fourG.nodes.length ∧
      (MinST fourG (canonL (prims fourG)) ∧
        (∀ x, x ∈ mstNodes (prims fourG) ↔ x ∈ fourG.nodes)) := by
  have hwf : WFG fourG :=
    ⟨by decide, by decide, by decide, by decide, by decide⟩
  have hconn : connectedG fourG := by
    intro x hx y hy
    have hx' : x = 0 ∨ x = 1 ∨ x = 2 ∨ x = 3 := by simpa [fourG] using hx
    have hy' : y = 0 ∨ y = 1 ∨ y = 2 ∨ y = 3 := by simpa [fourG] using hy
    rcases hx' with rfl | rfl | rfl | rfl <;>
      rcases hy' with rfl | rfl | rfl | rfl <;>
        first
          | exact Reach_refl _
          | exact Reach_single (by decide)
  exact ⟨hwf, hconn, by decide,
    prims_minimum_spanning_tree_correct.1 fourG hwf hconn (by decide)⟩
